import Mathlib

/-!
Shallow embedding of the resilient subscription engine of the ethclient
repository (the ChainSubscrier source file: SubscribeFilterlogs,
subscribeFilterlog, SubscribeNewHead, subscribeNewHead) and of
NonceManager.PendingNonceAt.

Modelling conventions:
* Block numbers, transaction indices and log indices are Nat (the source
  uses uint64 / uint for logs and big.Int for header numbers; only
  comparisons and +1 on them occur, so Nat is faithful).
* The external chain client (go-ethereum) is an oracle: each FilterLogs
  call is `oracle callIndex query`, each HeaderByNumber call is
  `oracle callIndex number`.  Remote outcomes are a sum type separating
  the cancellation-class errors (context.Canceled / DeadlineExceeded)
  that the source tests for from other errors.
* The unbounded retry loops of the source are given fuel; `none` means
  the loop is still running after `fuel` iterations.
* The gap-detector goroutine is sequential: it handles one raw item from
  the check channel at a time.  It is embedded as a step function on an
  explicit state (delivered items so far, lastLog cursor, oracle call
  counter, trace of queries issued, and whether the goroutine returned).
-/

/-- The fields of go-ethereum `types.Log` the engine inspects:
`BlockNumber uint64`, `TxIndex uint`, `Index uint`. -/
structure EthLog where
  blockNumber : Nat
  txIndex : Nat
  index : Nat
deriving DecidableEq, Repr

/-- The filter query fields the engine reads or writes: `FromBlock` and
`ToBlock` (nil-able big.Int pointers, hence `Option Nat`). -/
structure FilterQuery where
  fromBlock : Option Nat
  toBlock : Option Nat
deriving DecidableEq, Repr

/-- Outcome of one remote `FilterLogs` call.  The source distinguishes
`context.Canceled`/`context.DeadlineExceeded` (exit) from every other
error (sleep and retry). -/
inductive QueryResult where
  | ok (logs : List EthLog)
  | cancelled
  | transient
deriving DecidableEq, Repr

/-- `hasSeen` from `subscribeFilterlog`: reports whether `commingLog` was
already seen relative to `lastLog`.  Direct transcription of the nested
Go conditionals. -/
def hasSeen (lastLog commingLog : EthLog) : Bool :=
  if lastLog.blockNumber > commingLog.blockNumber then
    true
  else if lastLog.blockNumber = commingLog.blockNumber then
    if lastLog.txIndex > commingLog.txIndex then
      true
    else if lastLog.txIndex = commingLog.txIndex ∧ lastLog.index ≥ commingLog.index then
      true
    else
      false
  else
    false

/-- The spec's sequence key of a log event:
`(blockNumber, transactionIndex, logIndex)`. -/
def seqKey (l : EthLog) : Nat × Nat × Nat :=
  (l.blockNumber, l.txIndex, l.index)

/-- Transcribed from the spec's words (not from the source): strict
lexicographic order on `(blockNumber, txIndex, index)`. -/
def keyLt (a b : EthLog) : Prop :=
  a.blockNumber < b.blockNumber ∨
    (a.blockNumber = b.blockNumber ∧
      (a.txIndex < b.txIndex ∨ (a.txIndex = b.txIndex ∧ a.index < b.index)))

/-- Transcribed from the spec's words: lexicographic `≤` on sequence keys. -/
def keyLe (a b : EthLog) : Prop :=
  keyLt a b ∨ seqKey a = seqKey b

instance (a b : EthLog) : Decidable (keyLt a b) :=
  inferInstanceAs (Decidable (a.blockNumber < b.blockNumber ∨
    (a.blockNumber = b.blockNumber ∧
      (a.txIndex < b.txIndex ∨ (a.txIndex = b.txIndex ∧ a.index < b.index)))))

instance (a b : EthLog) : Decidable (keyLe a b) :=
  inferInstanceAs (Decidable (keyLt a b ∨ seqKey a = seqKey b))

/-- The `for _, l := range vlog` body of the log backfill pass: drop `l`
when `hasSeen(*lastLog, l)`, otherwise advance `lastLog` to `l` and send
`l` on the result channel.  Returns the delivered items in order,
together with the final `lastLog`. -/
def deliverBackfill (lastLog : EthLog) : List EthLog → List EthLog × EthLog
  | [] => ([], lastLog)
  | l :: rest =>
    if hasSeen lastLog l then
      deliverBackfill lastLog rest
    else
      (l :: (deliverBackfill l rest).1, (deliverBackfill l rest).2)

/-- The `for start <= end` backfill loop of `subscribeFilterlog`
(arguments: fuel, oracle-call counter, `start`, `end`, `lastLog`).
One iteration sets `query.FromBlock = start` and calls `FilterLogs`:
* cancellation-class error: the goroutine returns (`exited = true`);
* any other error: sleep `reconnectInterval` and retry (same `start`);
* success: run the delivery pass over the returned logs, then
  `start = end + 1` (which terminates the loop).
Result: `(delivered, lastLog, calls, queries issued, exited)`;
`none` when the fuel ran out with the loop still running. -/
def filterlogGapLoop (oracle : Nat → FilterQuery → QueryResult) (query : FilterQuery) :
    Nat → Nat → Nat → Nat → EthLog →
    Option (List EthLog × EthLog × Nat × List FilterQuery × Bool)
  | 0, _, _, _, _ => none
  | fuel + 1, calls, start, endB, lastLog =>
    if start ≤ endB then
      match oracle calls { query with fromBlock := some start } with
      | .cancelled =>
        some ([], lastLog, calls + 1, [{ query with fromBlock := some start }], true)
      | .transient =>
        match filterlogGapLoop oracle query fuel (calls + 1) start endB lastLog with
        | none => none
        | some (ds, l, c, qs, ex) =>
          some (ds, l, c, { query with fromBlock := some start } :: qs, ex)
      | .ok vlog =>
        match filterlogGapLoop oracle query fuel (calls + 1) (endB + 1) endB
            (deliverBackfill lastLog vlog).2 with
        | none => none
        | some (ds2, l2, c2, qs2, ex) =>
          some ((deliverBackfill lastLog vlog).1 ++ ds2, l2, c2,
            { query with fromBlock := some start } :: qs2, ex)
    else
      some ([], lastLog, calls, [], false)

/-- State of the gap-detector goroutine of `subscribeFilterlog`:
items sent on `resultChan` so far (in order), the `lastLog` cursor, the
oracle call counter, the trace of `FilterLogs` queries issued by the
goroutine, and whether the goroutine has returned. -/
structure FilterlogState where
  delivered : List EthLog
  lastLog : Option EthLog
  calls : Nat
  queries : List FilterQuery
  exited : Bool
deriving DecidableEq, Repr

/-- Handling of one raw item `commingLog` received on the check channel
(the `case commingLog := <-checkChan` branch of `subscribeFilterlog`). -/
def filterlogStep (oracle : Nat → FilterQuery → QueryResult) (query : FilterQuery)
    (fuel : Nat) (st : FilterlogState) (comming : EthLog) : Option FilterlogState :=
  if st.exited then some st
  else
    match st.lastLog with
    | none => some { st with delivered := st.delivered ++ [comming], lastLog := some comming }
    | some last =>
      if hasSeen last comming then some st
      else
        match filterlogGapLoop oracle query fuel st.calls
            last.blockNumber comming.blockNumber last with
        | none => none
        | some (ds, l, c, qs, ex) =>
          some { delivered := st.delivered ++ ds, lastLog := some l, calls := c,
                 queries := st.queries ++ qs, exited := ex }

/-- The gap-detector goroutine run over a finite sequence of raw items
taken from the check channel, in channel order. -/
def filterlogLoop (oracle : Nat → FilterQuery → QueryResult) (query : FilterQuery)
    (fuel : Nat) : FilterlogState → List EthLog → Option FilterlogState
  | st, [] => some st
  | st, c :: raw =>
    match filterlogStep oracle query fuel st c with
    | none => none
    | some st2 => filterlogLoop oracle query fuel st2 raw

/-- The field of go-ethereum `types.Header` the engine inspects:
`Number` (a big.Int, hence Nat). -/
structure EthHeader where
  number : Nat
deriving DecidableEq, Repr

/-- Outcome of one remote `HeaderByNumber` call.  The source switches on
`context.DeadlineExceeded, context.Canceled` (exit), `ethereum.NotFound`
(sleep and retry), `nil` (success), and any other error (sleep and
retry). -/
inductive HeadQueryResult where
  | ok (h : EthHeader)
  | cancelled
  | notFound
  | transient
deriving DecidableEq, Repr

/-- The `for start.Cmp(end) < 0` missing-header loop of
`subscribeNewHead` (arguments: fuel, oracle-call counter, `start`,
`end`).  One iteration calls `HeaderByNumber(start)`:
* cancellation-class error: the goroutine returns (`exited = true`);
* `NotFound` or any other error: sleep `reconnectInterval`, retry
  the same number;
* success: increment `start` and send the header on the result channel.
Result: `(delivered, calls, numbers fetched, exited)`; `none` when the
fuel ran out with the loop still running. -/
def newHeadGapLoop (oracle : Nat → Nat → HeadQueryResult) :
    Nat → Nat → Nat → Nat → Option (List EthHeader × Nat × List Nat × Bool)
  | 0, _, _, _ => none
  | fuel + 1, calls, start, endN =>
    if start < endN then
      match oracle calls start with
      | .cancelled => some ([], calls + 1, [start], true)
      | .notFound =>
        match newHeadGapLoop oracle fuel (calls + 1) start endN with
        | none => none
        | some (ds, c, fs, ex) => some (ds, c, start :: fs, ex)
      | .transient =>
        match newHeadGapLoop oracle fuel (calls + 1) start endN with
        | none => none
        | some (ds, c, fs, ex) => some (ds, c, start :: fs, ex)
      | .ok h =>
        match newHeadGapLoop oracle fuel (calls + 1) (start + 1) endN with
        | none => none
        | some (ds, c, fs, ex) => some (h :: ds, c, start :: fs, ex)
    else
      some ([], calls, [], false)

/-- State of the gap-detector goroutine of `subscribeNewHead`: headers
sent on `resultChan` so far, the `lastHeader` cursor, the oracle call
counter, the trace of `HeaderByNumber` requests, and whether the
goroutine has returned. -/
structure NewHeadState where
  delivered : List EthHeader
  lastHeader : Option EthHeader
  calls : Nat
  fetches : List Nat
  exited : Bool
deriving DecidableEq, Repr

/-- Handling of one raw header `result` received on the check channel
(the `case result := <-checkChan` branch of `subscribeNewHead`).
`lastHeader.Number.Cmp(result.Number) >= 0` drops the item; otherwise
the missing-header loop runs over `(lastHeader.Number + 1, result.Number)`
and then `result` itself is stored as `lastHeader` and delivered. -/
def newHeadStep (oracle : Nat → Nat → HeadQueryResult) (fuel : Nat)
    (st : NewHeadState) (result : EthHeader) : Option NewHeadState :=
  if st.exited then some st
  else
    match st.lastHeader with
    | none => some { st with delivered := st.delivered ++ [result], lastHeader := some result }
    | some last =>
      if result.number ≤ last.number then some st
      else
        match newHeadGapLoop oracle fuel st.calls (last.number + 1) result.number with
        | none => none
        | some (ds, c, fs, true) =>
          some { st with
                 delivered := st.delivered ++ ds
                 calls := c
                 fetches := st.fetches ++ fs
                 exited := true }
        | some (ds, c, fs, false) =>
          some { delivered := st.delivered ++ ds ++ [result], lastHeader := some result,
                 calls := c, fetches := st.fetches ++ fs, exited := false }

/-- The `subscribeNewHead` gap-detector goroutine run over a finite
sequence of raw headers taken from the check channel, in order. -/
def newHeadLoop (oracle : Nat → Nat → HeadQueryResult) (fuel : Nat) :
    NewHeadState → List EthHeader → Option NewHeadState
  | st, [] => some st
  | st, c :: raw =>
    match newHeadStep oracle fuel st c with
    | none => none
    | some st2 => newHeadLoop oracle fuel st2 raw

/-- States of a resubscription-supervisor goroutine, per the loop
structure common to both variants: about to call the resubscribe
function, waiting on the live session, sleeping before a retry, or
returned. -/
inductive SupState where
  | connecting
  | active
  | backoff
  | stopped
deriving DecidableEq, Repr

/-- Wake-up events a supervisor goroutine can react to at its blocking
points: outcome of the resubscribe call, the session error channel
firing, the context being cancelled, and the backoff sleep elapsing. -/
inductive SupEvent where
  | openOk
  | openCancelled
  | openErr
  | sessionErr
  | ctxDone
  | sleepDone
deriving DecidableEq, Repr

/-- The resubscription goroutine of `subscribeFilterlog` as a step
function: `none` means the goroutine's code has no branch reacting to
that event in that state (the event is not observable there).
* connecting: `fn()` with a three-way switch on the error;
* active: `select` on `sub.Err()` and `ctx.Done()`;
* backoff: `time.Sleep(reconnectInterval)` (not cancellable), then loop. -/
def filterlogResubStep : SupState → SupEvent → Option SupState
  | .connecting, .openOk => some .active
  | .connecting, .openCancelled => some .stopped
  | .connecting, .openErr => some .backoff
  | .active, .sessionErr => some .backoff
  | .active, .ctxDone => some .stopped
  | .backoff, .sleepDone => some .connecting
  | _, _ => none

/-- The resubscription goroutine of `subscribeNewHead` as a step
function.  Identical to the log variant except in the active state,
where the `select` has a single case `err := <-sub.Err()` and no
`ctx.Done()` case. -/
def newHeadResubStep : SupState → SupEvent → Option SupState
  | .connecting, .openOk => some .active
  | .connecting, .openCancelled => some .stopped
  | .connecting, .openErr => some .backoff
  | .active, .sessionErr => some .backoff
  | .backoff, .sleepDone => some .connecting
  | _, _ => none

/-- What a subscribe call of the facade produces: whether a non-nil
error was returned to the caller, how many goroutines were started, and
the gap-detector run over the raw stream (`none` inside when its fuel
ran out). -/
structure SubscribeOutcome (σ : Type) where
  err : Bool
  tasksStarted : Nat
  run : Option σ
deriving DecidableEq, Repr

/-- `SubscribeFilterlogs`: one eager `FilterLogs(ctx, q)` call (oracle
call 0); a non-nil error from it is returned and nothing else happens.
On success the returned logs are preloaded into the check channel ahead
of every item the live session will push, and the two goroutines are
started (the detector's oracle calls continue from index 1). -/
def SubscribeFilterlogs (oracle : Nat → FilterQuery → QueryResult) (q : FilterQuery)
    (fuel : Nat) (live : List EthLog) : SubscribeOutcome FilterlogState :=
  match oracle 0 q with
  | .ok logs =>
    { err := false, tasksStarted := 2,
      run := filterlogLoop oracle q fuel ⟨[], none, 1, [q], false⟩ (logs ++ live) }
  | .cancelled => { err := true, tasksStarted := 0, run := some ⟨[], none, 1, [q], false⟩ }
  | .transient => { err := true, tasksStarted := 0, run := some ⟨[], none, 1, [q], false⟩ }

/-- `SubscribeNewHead`: no eager query of any kind; the two goroutines
are started and the call returns `cs.subscribeNewHead(...)`, which is
always `nil`. -/
def SubscribeNewHead (oracle : Nat → Nat → HeadQueryResult) (fuel : Nat)
    (live : List EthHeader) : SubscribeOutcome NewHeadState :=
  { err := false, tasksStarted := 2,
    run := newHeadLoop oracle fuel ⟨[], none, 0, [], false⟩ live }

/-- Go map write `nonceMap[account] = v`, on an association-list
representation of the map. -/
def mapSet : List (Nat × Nat) → Nat → Nat → List (Nat × Nat)
  | [], k, v => [(k, v)]
  | (k2, v2) :: rest, k, v =>
    if k2 = k then (k, v) :: rest else (k2, v2) :: mapSet rest k v

/-- `NonceManager.PendingNonceAt` (accounts as Nat): look the account up
in `nonceMap`; when absent query the remote client, and on a remote
error return `(0, err)` with the map untouched; otherwise store
`nonce + 1` and return `nonce`.  Result: the Go return value and the
map after the call. -/
def PendingNonceAt (client : Nat → Except Unit Nat) (nonceMap : List (Nat × Nat))
    (account : Nat) : Except Unit Nat × List (Nat × Nat) :=
  match nonceMap.lookup account with
  | some nonce => (.ok nonce, mapSet nonceMap account (nonce + 1))
  | none =>
    match client account with
    | .error e => (.error e, nonceMap)
    | .ok nonce => (.ok nonce, mapSet nonceMap account (nonce + 1))

instance : IsTrans EthLog keyLt :=
  ⟨fun a b c h1 h2 => by unfold keyLt at h1 h2 ⊢; omega⟩

/-- Transcribed from the spec's words: the sequence key of a header
event is its block number alone; strict order on it. -/
def numLt (a b : EthHeader) : Prop := a.number < b.number

instance (a b : EthHeader) : Decidable (numLt a b) :=
  inferInstanceAs (Decidable (a.number < b.number))

instance : IsTrans EthHeader numLt := ⟨fun _ _ _ h1 h2 => Nat.lt_trans h1 h2⟩

/-- Invariant of the gap-detector state of `subscribeFilterlog`: what
was sent on the result channel is strictly increasing in the spec's
lexicographic order, and the `lastLog` cursor is exactly the item
delivered last (or unset before the first delivery). -/
def FilterlogInv (st : FilterlogState) : Prop :=
  List.Chain' keyLt st.delivered ∧ st.lastLog = st.delivered.getLast?

/-- Invariant of the gap-detector state of `subscribeNewHead`:
deliveries are strictly increasing in block number, and while the
goroutine is live the `lastHeader` cursor is the raw header stored by
the most recent check-channel iteration that delivered. -/
def NewHeadInv (st : NewHeadState) : Prop :=
  List.Chain' numLt st.delivered ∧
    (st.exited = false → st.lastHeader = st.delivered.getLast?)

/-- An oracle whose first `m` calls fail with a transient error and
whose later calls succeed with `vlog`. -/
def delayOracle (m : Nat) (vlog : List EthLog) : Nat → FilterQuery → QueryResult :=
  fun i _ => if i < m then QueryResult.transient else QueryResult.ok vlog

/-- An oracle whose first `m` calls fail with `e` and whose later calls
return the header `hd`. -/
def headDelayOracle (m : Nat) (e : HeadQueryResult) (hd : EthHeader) :
    Nat → Nat → HeadQueryResult :=
  fun i _ => if i < m then e else HeadQueryResult.ok hd

/-- The well-behaved header oracle: `HeaderByNumber n` returns the
canonical header of block `n`. -/
def headNumOracle : Nat → Nat → HeadQueryResult :=
  fun _ n => HeadQueryResult.ok ⟨n⟩

/-- Modelled collaborator semantics for `FilterLogs` against a fixed
history (spec section 6: the backfill query returns the complete ordered
set of matching items; items below the query's FromBlock are outside its
range). -/
def histOracle (hist : List EthLog) : Nat → FilterQuery → QueryResult :=
  fun _ q =>
    QueryResult.ok (hist.filter (fun l => decide (q.fromBlock.getD 0 ≤ l.blockNumber)))


/-! ## Order lemmas relating `hasSeen` to the spec's lexicographic order -/

theorem hasSeen_iff (last c : EthLog) : hasSeen last c = true ↔ keyLe c last := by
  unfold hasSeen keyLe keyLt seqKey
  split_ifs <;> simp_all [Prod.ext_iff] <;> omega

theorem hasSeen_false_iff (last c : EthLog) : hasSeen last c = false ↔ keyLt last c := by
  unfold hasSeen keyLt
  split_ifs <;> simp_all <;> omega

theorem hasSeen_self (x : EthLog) : hasSeen x x = true := by
  unfold hasSeen
  split_ifs <;> simp_all

theorem keyLt_trans {a b c : EthLog} : keyLt a b → keyLt b c → keyLt a c := by
  unfold keyLt
  omega

theorem keyLt_le_trans {a b c : EthLog} : keyLt a b → keyLe b c → keyLt a c := by
  unfold keyLe keyLt seqKey
  simp only [Prod.ext_iff]
  omega

theorem keyLe_refl (a : EthLog) : keyLe a a := Or.inr rfl

theorem keyLt_key_ne {a b : EthLog} : keyLt a b → seqKey a ≠ seqKey b := by
  intro h he
  unfold keyLt at h
  unfold seqKey at he
  simp only [Prod.ext_iff] at he
  omega

theorem keyLt_block_le {a b : EthLog} : keyLt a b → a.blockNumber ≤ b.blockNumber := by
  unfold keyLt
  omega

/-! ## Lemmas about the backfill delivery pass -/

theorem deliverBackfill_chain (vlog : List EthLog) :
    ∀ last : EthLog,
      List.Chain' keyLt (last :: (deliverBackfill last vlog).1) ∧
        (last :: (deliverBackfill last vlog).1).getLast? =
          some (deliverBackfill last vlog).2 := by
  induction vlog with
  | nil => intro last; simp [deliverBackfill]
  | cons l rest ih =>
    intro last
    cases h : hasSeen last l with
    | true => simpa [deliverBackfill, h] using ih last
    | false =>
      have hlt : keyLt last l := (hasSeen_false_iff last l).mp h
      have := ih l
      simp only [deliverBackfill, h, Bool.false_eq_true, ite_false]
      refine ⟨List.chain'_cons.mpr ⟨hlt, this.1⟩, ?_⟩
      simpa [List.getLast?_cons_cons] using this.2

theorem deliverBackfill_of_chain (vlog : List EthLog) :
    ∀ x : EthLog, List.Chain' keyLt (x :: vlog) →
      (deliverBackfill x vlog).1 = vlog := by
  induction vlog with
  | nil => intro x _; simp [deliverBackfill]
  | cons y t ih =>
    intro x hc
    have hxy : keyLt x y := (List.chain'_cons.mp hc).1
    have hys : hasSeen x y = false := (hasSeen_false_iff x y).mpr hxy
    have := ih y (List.chain'_cons.mp hc).2
    simp [deliverBackfill, hys, this]

/-! ## Invariant of the log backfill loop -/

theorem filterlogGapLoop_chain (oracle : Nat → FilterQuery → QueryResult)
    (query : FilterQuery) :
    ∀ (fuel calls start endB : Nat) (last : EthLog) ds l c qs ex,
      filterlogGapLoop oracle query fuel calls start endB last = some (ds, l, c, qs, ex) →
      List.Chain' keyLt (last :: ds) ∧ (last :: ds).getLast? = some l := by
  intro fuel
  induction fuel with
  | zero => intro calls start endB last ds l c qs ex h; simp [filterlogGapLoop] at h
  | succ fuel ih =>
    intro calls start endB last ds l c qs ex h
    rw [filterlogGapLoop] at h
    by_cases hse : start ≤ endB
    · rw [if_pos hse] at h
      cases horacle : oracle calls { query with fromBlock := some start } with
      | cancelled =>
        rw [horacle] at h
        simp only [Option.some.injEq, Prod.mk.injEq] at h
        obtain ⟨h1, h2, _, _, _⟩ := h
        subst h1; subst h2
        simp
      | transient =>
        rw [horacle] at h
        cases hrec : filterlogGapLoop oracle query fuel (calls + 1) start endB last with
        | none => rw [hrec] at h; simp at h
        | some r =>
          obtain ⟨ds2, l2, c2, qs2, ex2⟩ := r
          rw [hrec] at h
          simp only [Option.some.injEq, Prod.mk.injEq] at h
          obtain ⟨h1, h2, _, _, _⟩ := h
          subst h1; subst h2
          exact ih (calls + 1) start endB last ds2 l2 c2 qs2 ex2 hrec
      | ok vlog =>
        rw [horacle] at h
        dsimp only at h
        cases hrec : filterlogGapLoop oracle query fuel (calls + 1) (endB + 1) endB
            (deliverBackfill last vlog).2 with
        | none => rw [hrec] at h; simp at h
        | some r =>
          obtain ⟨ds2, l2, c2, qs2, ex2⟩ := r
          rw [hrec] at h
          simp only [Option.some.injEq, Prod.mk.injEq] at h
          obtain ⟨h1, h2, _, _, _⟩ := h
          have hfirst := deliverBackfill_chain vlog last
          have hrest := ih (calls + 1) (endB + 1) endB (deliverBackfill last vlog).2
            ds2 l2 c2 qs2 ex2 hrec
          subst h1; subst h2
          constructor
          · have : last :: (deliverBackfill last vlog).1 ++ ds2 =
                (last :: (deliverBackfill last vlog).1) ++ ds2 := by simp
            rw [show last :: ((deliverBackfill last vlog).1 ++ ds2) =
                (last :: (deliverBackfill last vlog).1) ++ ds2 by simp]
            refine List.chain'_append.mpr ⟨hfirst.1, hrest.1.tail, ?_⟩
            intro x hx y hy
            rw [hfirst.2] at hx
            simp only [Option.mem_def, Option.some.injEq] at hx
            subst hx
            exact (List.chain'_cons'.mp hrest.1).1 y hy
          · cases hds2 : ds2 with
            | nil =>
              rw [hds2] at hrest
              simp only [List.getLast?_singleton, Option.some.injEq] at hrest
              rw [← hrest.2]
              simpa using hfirst.2
            | cons d2 t2 =>
              rw [hds2] at hrest
              rw [show last :: ((deliverBackfill last vlog).1 ++ d2 :: t2) =
                  (last :: (deliverBackfill last vlog).1) ++ d2 :: t2 by simp]
              rw [List.getLast?_append_of_ne_nil _ (by simp)]
              simpa using hrest.2
    · rw [if_neg hse] at h
      simp only [Option.some.injEq, Prod.mk.injEq] at h
      obtain ⟨h1, h2, _, _, _⟩ := h
      subst h1; subst h2
      simp

/-- Gluing lemma: a chain `dl` ending in `last` extended by a chain
`last :: ds` ending in `l` gives a chain `dl ++ ds` ending in `l`. -/
theorem chain'_append_link {α : Type} {R : α → α → Prop} {dl ds : List α} {last l : α}
    (h1 : List.Chain' R dl) (h2 : dl.getLast? = some last)
    (h3 : List.Chain' R (last :: ds)) (h4 : (last :: ds).getLast? = some l) :
    List.Chain' R (dl ++ ds) ∧ (dl ++ ds).getLast? = some l := by
  constructor
  · refine List.chain'_append.mpr ⟨h1, h3.tail, ?_⟩
    intro x hx y hy
    rw [h2] at hx
    simp only [Option.mem_def, Option.some.injEq] at hx
    subst hx
    exact (List.chain'_cons'.mp h3).1 y hy
  · cases ds with
    | nil =>
      simp only [List.getLast?_singleton, Option.some.injEq] at h4
      subst h4
      simpa using h2
    | cons d t =>
      rw [List.getLast?_append_of_ne_nil _ (by simp)]
      simpa using h4

/-! ## Invariant of the log gap detector -/

theorem filterlogStep_inv (oracle : Nat → FilterQuery → QueryResult) (query : FilterQuery)
    (fuel : Nat) (st st2 : FilterlogState) (c : EthLog)
    (hinv : FilterlogInv st) (h : filterlogStep oracle query fuel st c = some st2) :
    FilterlogInv st2 := by
  unfold filterlogStep at h
  cases hex : st.exited with
  | true =>
    rw [hex] at h
    simp only [if_true] at h
    cases h
    exact hinv
  | false =>
    rw [hex] at h
    simp only [Bool.false_eq_true, if_false] at h
    cases hll : st.lastLog with
    | none =>
      rw [hll] at h
      dsimp only at h
      cases h
      have hemp : st.delivered = [] := by
        have := hinv.2
        rw [hll] at this
        exact List.getLast?_eq_none_iff.mp this.symm
      constructor
      · simp [hemp]
      · simp [hemp]
    | some last =>
      rw [hll] at h
      dsimp only at h
      cases hseen : hasSeen last c with
      | true =>
        rw [hseen] at h
        simp only [if_true] at h
        cases h
        exact hinv
      | false =>
        rw [hseen] at h
        simp only [Bool.false_eq_true, if_false] at h
        cases hgl : filterlogGapLoop oracle query fuel st.calls
            last.blockNumber c.blockNumber last with
        | none => rw [hgl] at h; simp at h
        | some r =>
          obtain ⟨ds, l, c2, qs, ex⟩ := r
          rw [hgl] at h
          dsimp only at h
          cases h
          have hch := filterlogGapLoop_chain oracle query fuel st.calls
            last.blockNumber c.blockNumber last ds l c2 qs ex hgl
          have hlast : st.delivered.getLast? = some last := by
            rw [← hinv.2, hll]
          have := chain'_append_link hinv.1 hlast hch.1 hch.2
          exact ⟨this.1, this.2.symm⟩

theorem filterlogLoop_inv (oracle : Nat → FilterQuery → QueryResult) (query : FilterQuery)
    (fuel : Nat) :
    ∀ (raw : List EthLog) (st st2 : FilterlogState),
      FilterlogInv st → filterlogLoop oracle query fuel st raw = some st2 →
      FilterlogInv st2 := by
  intro raw
  induction raw with
  | nil =>
    intro st st2 hinv h
    rw [filterlogLoop] at h
    cases h
    exact hinv
  | cons c rest ih =>
    intro st st2 hinv h
    rw [filterlogLoop] at h
    cases hstep : filterlogStep oracle query fuel st c with
    | none => rw [hstep] at h; simp at h
    | some st1 =>
      rw [hstep] at h
      dsimp only at h
      exact ih st1 st2 (filterlogStep_inv oracle query fuel st st1 c hinv hstep) h

/-! ## Invariant of the header gap detector -/

theorem numLt_ne {a b : EthHeader} : numLt a b → a.number ≠ b.number :=
  fun h => Nat.ne_of_lt h

theorem newHeadGapLoop_spec (oracle : Nat → Nat → HeadQueryResult)
    (hok : ∀ i n h, oracle i n = .ok h → h.number = n) :
    ∀ (fuel calls start endN : Nat) ds c fs ex,
      newHeadGapLoop oracle fuel calls start endN = some (ds, c, fs, ex) →
      List.Chain' numLt ds ∧ (∀ h ∈ ds, start ≤ h.number ∧ h.number < endN) ∧
        ∀ f ∈ fs, start ≤ f ∧ f < endN := by
  intro fuel
  induction fuel with
  | zero => intro calls start endN ds c fs ex h; simp [newHeadGapLoop] at h
  | succ fuel ih =>
    intro calls start endN ds c fs ex h
    rw [newHeadGapLoop] at h
    by_cases hse : start < endN
    · rw [if_pos hse] at h
      cases horacle : oracle calls start with
      | cancelled =>
        rw [horacle] at h
        dsimp only at h
        cases h
        refine ⟨by simp, by simp, ?_⟩
        intro f hf
        simp only [List.mem_singleton] at hf
        subst hf
        exact ⟨Nat.le_refl _, hse⟩
      | notFound =>
        rw [horacle] at h
        cases hrec : newHeadGapLoop oracle fuel (calls + 1) start endN with
        | none => rw [hrec] at h; simp at h
        | some r =>
          obtain ⟨ds2, c2, fs2, ex2⟩ := r
          have := ih (calls + 1) start endN ds2 c2 fs2 ex2 hrec
          rw [hrec] at h
          dsimp only at h
          cases h
          refine ⟨this.1, this.2.1, ?_⟩
          intro f hf
          rcases List.mem_cons.mp hf with hf | hf
          · subst hf; exact ⟨Nat.le_refl _, hse⟩
          · exact this.2.2 f hf
      | transient =>
        rw [horacle] at h
        cases hrec : newHeadGapLoop oracle fuel (calls + 1) start endN with
        | none => rw [hrec] at h; simp at h
        | some r =>
          obtain ⟨ds2, c2, fs2, ex2⟩ := r
          have := ih (calls + 1) start endN ds2 c2 fs2 ex2 hrec
          rw [hrec] at h
          dsimp only at h
          cases h
          refine ⟨this.1, this.2.1, ?_⟩
          intro f hf
          rcases List.mem_cons.mp hf with hf | hf
          · subst hf; exact ⟨Nat.le_refl _, hse⟩
          · exact this.2.2 f hf
      | ok hd =>
        rw [horacle] at h
        cases hrec : newHeadGapLoop oracle fuel (calls + 1) (start + 1) endN with
        | none => rw [hrec] at h; simp at h
        | some r =>
          obtain ⟨ds2, c2, fs2, ex2⟩ := r
          have hnum : hd.number = start := hok calls start hd horacle
          have := ih (calls + 1) (start + 1) endN ds2 c2 fs2 ex2 hrec
          rw [hrec] at h
          dsimp only at h
          cases h
          refine ⟨?_, ?_, ?_⟩
          · refine List.chain'_cons'.mpr ⟨?_, this.1⟩
            intro y hy
            have hym := List.mem_of_mem_head? hy
            have := this.2.1 y hym
            unfold numLt
            omega
          · intro g hg
            rcases List.mem_cons.mp hg with hg | hg
            · subst hg; omega
            · have := this.2.1 g hg; omega
          · intro f hf
            rcases List.mem_cons.mp hf with hf | hf
            · subst hf; exact ⟨Nat.le_refl _, hse⟩
            · have := this.2.2 f hf; omega
    · rw [if_neg hse] at h
      cases h
      exact ⟨by simp, by simp, by simp⟩

theorem newHeadStep_inv (oracle : Nat → Nat → HeadQueryResult)
    (hok : ∀ i n h, oracle i n = .ok h → h.number = n)
    (fuel : Nat) (st st2 : NewHeadState) (c : EthHeader)
    (hinv : NewHeadInv st) (h : newHeadStep oracle fuel st c = some st2) :
    NewHeadInv st2 := by
  unfold newHeadStep at h
  cases hex : st.exited with
  | true =>
    rw [hex] at h
    simp only [if_true] at h
    cases h
    exact hinv
  | false =>
    rw [hex] at h
    simp only [Bool.false_eq_true, if_false] at h
    cases hll : st.lastHeader with
    | none =>
      rw [hll] at h
      dsimp only at h
      cases h
      have hemp : st.delivered = [] := by
        have := hinv.2 hex
        rw [hll] at this
        exact List.getLast?_eq_none_iff.mp this.symm
      exact ⟨by simp [hemp], by intro _; simp [hemp]⟩
    | some last =>
      rw [hll] at h
      dsimp only at h
      cases hle : decide (c.number ≤ last.number) with
      | true =>
        rw [if_pos (of_decide_eq_true hle)] at h
        cases h
        exact hinv
      | false =>
        have hgt : last.number < c.number := Nat.lt_of_not_le (of_decide_eq_false hle)
        rw [if_neg (of_decide_eq_false hle)] at h
        cases hgl : newHeadGapLoop oracle fuel st.calls (last.number + 1) c.number with
        | none => rw [hgl] at h; simp at h
        | some r =>
          obtain ⟨ds, c2, fs, ex⟩ := r
          have hsp := newHeadGapLoop_spec oracle hok fuel st.calls
            (last.number + 1) c.number ds c2 fs ex hgl
          have hlastd : st.delivered.getLast? = some last := by
            rw [← hinv.2 hex, hll]
          have hchainlast : List.Chain' numLt (last :: ds) := by
            refine List.chain'_cons'.mpr ⟨?_, hsp.1⟩
            intro y hy
            have := hsp.2.1 y (List.mem_of_mem_head? hy)
            unfold numLt
            omega
          rw [hgl] at h
          cases ex with
          | true =>
            dsimp only at h
            cases h
            constructor
            · refine (List.chain'_append.mpr ⟨hinv.1, hchainlast.tail, ?_⟩)
              intro x hx y hy
              rw [hlastd] at hx
              simp only [Option.mem_def, Option.some.injEq] at hx
              subst hx
              exact (List.chain'_cons'.mp hchainlast).1 y hy
            · intro hfalse
              simp at hfalse
          | false =>
            dsimp only at h
            cases h
            have hchainfull : List.Chain' numLt (last :: (ds ++ [c])) := by
              rw [show last :: (ds ++ [c]) = (last :: ds) ++ [c] by simp]
              refine List.chain'_append.mpr ⟨hchainlast, by simp, ?_⟩
              intro x hx y hy
              simp only [List.head?_cons, Option.mem_def, Option.some.injEq] at hy
              subst hy
              have hxm := List.mem_of_mem_getLast? hx
              rcases List.mem_cons.mp hxm with hxm | hxm
              · subst hxm; exact hgt
              · have := hsp.2.1 x hxm
                unfold numLt
                omega
            have hgetfull : (last :: (ds ++ [c])).getLast? = some c := by
              rw [show last :: (ds ++ [c]) = (last :: ds) ++ [c] by simp]
              exact List.getLast?_concat _
            have := chain'_append_link hinv.1 hlastd hchainfull hgetfull
            constructor
            · rw [← List.append_assoc] at this
              exact this.1
            · intro _
              rw [← List.append_assoc] at this
              exact this.2.symm

theorem newHeadLoop_inv (oracle : Nat → Nat → HeadQueryResult)
    (hok : ∀ i n h, oracle i n = .ok h → h.number = n) (fuel : Nat) :
    ∀ (raw : List EthHeader) (st st2 : NewHeadState),
      NewHeadInv st → newHeadLoop oracle fuel st raw = some st2 →
      NewHeadInv st2 := by
  intro raw
  induction raw with
  | nil =>
    intro st st2 hinv h
    rw [newHeadLoop] at h
    cases h
    exact hinv
  | cons c rest ih =>
    intro st st2 hinv h
    rw [newHeadLoop] at h
    cases hstep : newHeadStep oracle fuel st c with
    | none => rw [hstep] at h; simp at h
    | some st1 =>
      rw [hstep] at h
      dsimp only at h
      exact ih st1 st2 (newHeadStep_inv oracle hok fuel st st1 c hinv hstep) h

/-! ## Structural lemmas about the detector loops -/

theorem filterlogStep_exited (oracle : Nat → FilterQuery → QueryResult) (query : FilterQuery)
    (fuel : Nat) (st : FilterlogState) (c : EthLog) (h : st.exited = true) :
    filterlogStep oracle query fuel st c = some st := by
  unfold filterlogStep
  rw [h]
  simp

theorem filterlogLoop_exited (oracle : Nat → FilterQuery → QueryResult) (query : FilterQuery)
    (fuel : Nat) :
    ∀ (raw : List EthLog) (st : FilterlogState), st.exited = true →
      filterlogLoop oracle query fuel st raw = some st := by
  intro raw
  induction raw with
  | nil => intro st _; rw [filterlogLoop]
  | cons c rest ih =>
    intro st h
    rw [filterlogLoop, filterlogStep_exited oracle query fuel st c h]
    exact ih st h

theorem newHeadStep_exited (oracle : Nat → Nat → HeadQueryResult)
    (fuel : Nat) (st : NewHeadState) (c : EthHeader) (h : st.exited = true) :
    newHeadStep oracle fuel st c = some st := by
  unfold newHeadStep
  rw [h]
  simp

theorem newHeadLoop_exited (oracle : Nat → Nat → HeadQueryResult) (fuel : Nat) :
    ∀ (raw : List EthHeader) (st : NewHeadState), st.exited = true →
      newHeadLoop oracle fuel st raw = some st := by
  intro raw
  induction raw with
  | nil => intro st _; rw [newHeadLoop]
  | cons c rest ih =>
    intro st h
    rw [newHeadLoop, newHeadStep_exited oracle fuel st c h]
    exact ih st h

theorem filterlogStep_extends (oracle : Nat → FilterQuery → QueryResult) (query : FilterQuery)
    (fuel : Nat) (st st2 : FilterlogState) (c : EthLog)
    (h : filterlogStep oracle query fuel st c = some st2) :
    ∃ tail, st2.delivered = st.delivered ++ tail := by
  unfold filterlogStep at h
  cases hex : st.exited with
  | true =>
    rw [hex] at h
    simp only [if_true] at h
    cases h
    exact ⟨[], by simp⟩
  | false =>
    rw [hex] at h
    simp only [Bool.false_eq_true, if_false] at h
    cases hll : st.lastLog with
    | none =>
      rw [hll] at h
      dsimp only at h
      cases h
      exact ⟨[c], rfl⟩
    | some last =>
      rw [hll] at h
      dsimp only at h
      cases hseen : hasSeen last c with
      | true =>
        rw [hseen] at h
        simp only [if_true] at h
        cases h
        exact ⟨[], by simp⟩
      | false =>
        rw [hseen] at h
        simp only [Bool.false_eq_true, if_false] at h
        cases hgl : filterlogGapLoop oracle query fuel st.calls
            last.blockNumber c.blockNumber last with
        | none => rw [hgl] at h; simp at h
        | some r =>
          obtain ⟨ds, l, c2, qs, ex⟩ := r
          rw [hgl] at h
          dsimp only at h
          cases h
          exact ⟨ds, rfl⟩

theorem filterlogLoop_extends (oracle : Nat → FilterQuery → QueryResult) (query : FilterQuery)
    (fuel : Nat) :
    ∀ (raw : List EthLog) (st st2 : FilterlogState),
      filterlogLoop oracle query fuel st raw = some st2 →
      ∃ tail, st2.delivered = st.delivered ++ tail := by
  intro raw
  induction raw with
  | nil =>
    intro st st2 h
    rw [filterlogLoop] at h
    cases h
    exact ⟨[], by simp⟩
  | cons c rest ih =>
    intro st st2 h
    rw [filterlogLoop] at h
    cases hstep : filterlogStep oracle query fuel st c with
    | none => rw [hstep] at h; simp at h
    | some st1 =>
      rw [hstep] at h
      dsimp only at h
      obtain ⟨t1, ht1⟩ := filterlogStep_extends oracle query fuel st st1 c hstep
      obtain ⟨t2, ht2⟩ := ih st1 st2 h
      exact ⟨t1 ++ t2, by rw [ht2, ht1, List.append_assoc]⟩

theorem newHeadStep_extends (oracle : Nat → Nat → HeadQueryResult)
    (fuel : Nat) (st st2 : NewHeadState) (c : EthHeader)
    (h : newHeadStep oracle fuel st c = some st2) :
    ∃ tail, st2.delivered = st.delivered ++ tail := by
  unfold newHeadStep at h
  cases hex : st.exited with
  | true =>
    rw [hex] at h
    simp only [if_true] at h
    cases h
    exact ⟨[], by simp⟩
  | false =>
    rw [hex] at h
    simp only [Bool.false_eq_true, if_false] at h
    cases hll : st.lastHeader with
    | none =>
      rw [hll] at h
      dsimp only at h
      cases h
      exact ⟨[c], rfl⟩
    | some last =>
      rw [hll] at h
      dsimp only at h
      by_cases hle : c.number ≤ last.number
      · rw [if_pos hle] at h
        cases h
        exact ⟨[], by simp⟩
      · rw [if_neg hle] at h
        cases hgl : newHeadGapLoop oracle fuel st.calls (last.number + 1) c.number with
        | none => rw [hgl] at h; simp at h
        | some r =>
          obtain ⟨ds, c2, fs, ex⟩ := r
          rw [hgl] at h
          cases ex with
          | true =>
            dsimp only at h
            cases h
            exact ⟨ds, rfl⟩
          | false =>
            dsimp only at h
            cases h
            exact ⟨ds ++ [c], by rw [List.append_assoc]⟩

theorem newHeadLoop_extends (oracle : Nat → Nat → HeadQueryResult) (fuel : Nat) :
    ∀ (raw : List EthHeader) (st st2 : NewHeadState),
      newHeadLoop oracle fuel st raw = some st2 →
      ∃ tail, st2.delivered = st.delivered ++ tail := by
  intro raw
  induction raw with
  | nil =>
    intro st st2 h
    rw [newHeadLoop] at h
    cases h
    exact ⟨[], by simp⟩
  | cons c rest ih =>
    intro st st2 h
    rw [newHeadLoop] at h
    cases hstep : newHeadStep oracle fuel st c with
    | none => rw [hstep] at h; simp at h
    | some st1 =>
      rw [hstep] at h
      dsimp only at h
      obtain ⟨t1, ht1⟩ := newHeadStep_extends oracle fuel st st1 c hstep
      obtain ⟨t2, ht2⟩ := ih st1 st2 h
      exact ⟨t1 ++ t2, by rw [ht2, ht1, List.append_assoc]⟩

theorem filterlogLoop_dropAll (oracle : Nat → FilterQuery → QueryResult) (query : FilterQuery)
    (fuel : Nat) :
    ∀ (raw : List EthLog) (ds : List EthLog) (last : EthLog) (calls : Nat)
      (qs : List FilterQuery),
      (∀ r ∈ raw, hasSeen last r = true) →
      filterlogLoop oracle query fuel ⟨ds, some last, calls, qs, false⟩ raw =
        some ⟨ds, some last, calls, qs, false⟩ := by
  intro raw
  induction raw with
  | nil => intro ds last calls qs _; rw [filterlogLoop]
  | cons c rest ih =>
    intro ds last calls qs hall
    rw [filterlogLoop]
    have hstep : filterlogStep oracle query fuel ⟨ds, some last, calls, qs, false⟩ c =
        some ⟨ds, some last, calls, qs, false⟩ := by
      unfold filterlogStep
      simp only
      rw [hall c (by simp)]
      simp
    rw [hstep]
    exact ih ds last calls qs fun r hr => hall r (by simp [hr])

/-! ## Where the detector goroutines can exit -/

theorem filterlogGapLoop_exit_cancel (oracle : Nat → FilterQuery → QueryResult)
    (query : FilterQuery) :
    ∀ (fuel calls start endB : Nat) (last : EthLog) ds l c qs,
      filterlogGapLoop oracle query fuel calls start endB last = some (ds, l, c, qs, true) →
      ∃ i q2, oracle i q2 = QueryResult.cancelled := by
  intro fuel
  induction fuel with
  | zero => intro calls start endB last ds l c qs h; simp [filterlogGapLoop] at h
  | succ fuel ih =>
    intro calls start endB last ds l c qs h
    rw [filterlogGapLoop] at h
    by_cases hse : start ≤ endB
    · rw [if_pos hse] at h
      cases horacle : oracle calls { query with fromBlock := some start } with
      | cancelled => exact ⟨calls, { query with fromBlock := some start }, horacle⟩
      | transient =>
        rw [horacle] at h
        cases hrec : filterlogGapLoop oracle query fuel (calls + 1) start endB last with
        | none => rw [hrec] at h; simp at h
        | some r =>
          obtain ⟨ds2, l2, c2, qs2, ex2⟩ := r
          rw [hrec] at h
          dsimp only at h
          simp only [Option.some.injEq, Prod.mk.injEq] at h
          obtain ⟨-, -, -, -, h5⟩ := h
          subst h5
          exact ih (calls + 1) start endB last ds2 l2 c2 qs2 hrec
      | ok vlog =>
        rw [horacle] at h
        dsimp only at h
        cases hrec : filterlogGapLoop oracle query fuel (calls + 1) (endB + 1) endB
            (deliverBackfill last vlog).2 with
        | none => rw [hrec] at h; simp at h
        | some r =>
          obtain ⟨ds2, l2, c2, qs2, ex2⟩ := r
          rw [hrec] at h
          dsimp only at h
          simp only [Option.some.injEq, Prod.mk.injEq] at h
          obtain ⟨-, -, -, -, h5⟩ := h
          subst h5
          exact ih (calls + 1) (endB + 1) endB (deliverBackfill last vlog).2
            ds2 l2 c2 qs2 hrec
    · rw [if_neg hse] at h
      simp at h

theorem filterlogStep_exit_cancel (oracle : Nat → FilterQuery → QueryResult)
    (query : FilterQuery) (fuel : Nat) (st st2 : FilterlogState) (c : EthLog)
    (h : filterlogStep oracle query fuel st c = some st2) (hex2 : st2.exited = true) :
    st.exited = true ∨ ∃ i q2, oracle i q2 = QueryResult.cancelled := by
  unfold filterlogStep at h
  cases hex : st.exited with
  | true => exact Or.inl rfl
  | false =>
    rw [hex] at h
    simp only [Bool.false_eq_true, if_false] at h
    cases hll : st.lastLog with
    | none =>
      rw [hll] at h
      dsimp only at h
      cases h
      simp [hex] at hex2
    | some last =>
      rw [hll] at h
      dsimp only at h
      cases hseen : hasSeen last c with
      | true =>
        rw [hseen] at h
        simp only [if_true] at h
        cases h
        simp [hex] at hex2
      | false =>
        rw [hseen] at h
        simp only [Bool.false_eq_true, if_false] at h
        cases hgl : filterlogGapLoop oracle query fuel st.calls
            last.blockNumber c.blockNumber last with
        | none => rw [hgl] at h; simp at h
        | some r =>
          obtain ⟨ds, l, c2, qs, ex⟩ := r
          rw [hgl] at h
          dsimp only at h
          cases h
          simp only at hex2
          subst hex2
          exact Or.inr (filterlogGapLoop_exit_cancel oracle query fuel st.calls
            last.blockNumber c.blockNumber last ds l c2 qs hgl)

theorem filterlogLoop_exit_cancel (oracle : Nat → FilterQuery → QueryResult)
    (query : FilterQuery) (fuel : Nat) :
    ∀ (raw : List EthLog) (st st2 : FilterlogState),
      filterlogLoop oracle query fuel st raw = some st2 → st2.exited = true →
      st.exited = true ∨ ∃ i q2, oracle i q2 = QueryResult.cancelled := by
  intro raw
  induction raw with
  | nil =>
    intro st st2 h hex2
    rw [filterlogLoop] at h
    cases h
    exact Or.inl hex2
  | cons c rest ih =>
    intro st st2 h hex2
    rw [filterlogLoop] at h
    cases hstep : filterlogStep oracle query fuel st c with
    | none => rw [hstep] at h; simp at h
    | some st1 =>
      rw [hstep] at h
      dsimp only at h
      rcases ih st1 st2 h hex2 with h1 | h1
      · exact filterlogStep_exit_cancel oracle query fuel st st1 c hstep h1
      · exact Or.inr h1

/-! ## The queries issued by the log backfill loop -/

theorem filterlogGapLoop_start_gt (oracle : Nat → FilterQuery → QueryResult)
    (query : FilterQuery) (fuel calls start endB : Nat) (last : EthLog)
    (h : endB < start) :
    filterlogGapLoop oracle query (fuel + 1) calls start endB last =
      some ([], last, calls, [], false) := by
  rw [filterlogGapLoop, if_neg (by omega)]

theorem filterlogGapLoop_queries (oracle : Nat → FilterQuery → QueryResult)
    (query : FilterQuery) :
    ∀ (fuel calls start endB : Nat) (last : EthLog) ds l c qs ex,
      filterlogGapLoop oracle query fuel calls start endB last = some (ds, l, c, qs, ex) →
      ∀ q2 ∈ qs, q2 = { query with fromBlock := some start } := by
  intro fuel
  induction fuel with
  | zero => intro calls start endB last ds l c qs ex h; simp [filterlogGapLoop] at h
  | succ fuel ih =>
    intro calls start endB last ds l c qs ex h
    rw [filterlogGapLoop] at h
    by_cases hse : start ≤ endB
    · rw [if_pos hse] at h
      cases horacle : oracle calls { query with fromBlock := some start } with
      | cancelled =>
        rw [horacle] at h
        dsimp only at h
        cases h
        simp
      | transient =>
        rw [horacle] at h
        cases hrec : filterlogGapLoop oracle query fuel (calls + 1) start endB last with
        | none => rw [hrec] at h; simp at h
        | some r =>
          obtain ⟨ds2, l2, c2, qs2, ex2⟩ := r
          have := ih (calls + 1) start endB last ds2 l2 c2 qs2 ex2 hrec
          rw [hrec] at h
          dsimp only at h
          cases h
          intro q2 hq2
          rcases List.mem_cons.mp hq2 with hq2 | hq2
          · exact hq2
          · exact this q2 hq2
      | ok vlog =>
        rw [horacle] at h
        dsimp only at h
        cases hrec : filterlogGapLoop oracle query fuel (calls + 1) (endB + 1) endB
            (deliverBackfill last vlog).2 with
        | none => rw [hrec] at h; simp at h
        | some r =>
          obtain ⟨ds2, l2, c2, qs2, ex2⟩ := r
          have hqs2 : qs2 = [] := by
            cases fuel with
            | zero => simp [filterlogGapLoop] at hrec
            | succ f =>
              rw [filterlogGapLoop_start_gt oracle query f (calls + 1) (endB + 1) endB
                (deliverBackfill last vlog).2 (by omega)] at hrec
              simp only [Option.some.injEq, Prod.mk.injEq] at hrec
              exact hrec.2.2.2.1.symm
          rw [hrec] at h
          dsimp only at h
          cases h
          subst hqs2
          intro q2 hq2
          rcases List.mem_cons.mp hq2 with hq2 | hq2
          · exact hq2
          · simp at hq2
    · rw [if_neg hse] at h
      cases h
      simp

theorem filterlogGapLoop_queries_ne_nil (oracle : Nat → FilterQuery → QueryResult)
    (query : FilterQuery) (fuel calls start endB : Nat) (last : EthLog) ds l c qs ex
    (hse : start ≤ endB)
    (h : filterlogGapLoop oracle query (fuel + 1) calls start endB last =
      some (ds, l, c, qs, ex)) :
    qs ≠ [] := by
  rw [filterlogGapLoop, if_pos hse] at h
  cases horacle : oracle calls { query with fromBlock := some start } with
  | cancelled =>
    rw [horacle] at h
    dsimp only at h
    cases h
    simp
  | transient =>
    rw [horacle] at h
    cases hrec : filterlogGapLoop oracle query fuel (calls + 1) start endB last with
    | none => rw [hrec] at h; simp at h
    | some r =>
      obtain ⟨ds2, l2, c2, qs2, ex2⟩ := r
      rw [hrec] at h
      dsimp only at h
      cases h
      simp
  | ok vlog =>
    rw [horacle] at h
    dsimp only at h
    cases hrec : filterlogGapLoop oracle query fuel (calls + 1) (endB + 1) endB
        (deliverBackfill last vlog).2 with
    | none => rw [hrec] at h; simp at h
    | some r =>
      obtain ⟨ds2, l2, c2, qs2, ex2⟩ := r
      rw [hrec] at h
      dsimp only at h
      cases h
      simp

theorem filterlogGapLoop_ok (oracle : Nat → FilterQuery → QueryResult)
    (query : FilterQuery) (fuel calls start endB : Nat) (last : EthLog)
    (vlog : List EthLog) (hse : start ≤ endB)
    (hor : oracle calls { query with fromBlock := some start } = QueryResult.ok vlog) :
    filterlogGapLoop oracle query (fuel + 2) calls start endB last =
      some ((deliverBackfill last vlog).1, (deliverBackfill last vlog).2, calls + 1,
        [{ query with fromBlock := some start }], false) := by
  rw [filterlogGapLoop, if_pos hse, hor]
  dsimp only
  rw [filterlogGapLoop_start_gt oracle query fuel (calls + 1) (endB + 1) endB
    (deliverBackfill last vlog).2 (by omega)]
  simp

/-! ## Retry behaviour of the backfill loops under failures -/

theorem filterlogGapLoop_delay (m : Nat) (vlog : List EthLog) (query : FilterQuery)
    (start endB : Nat) (last : EthLog) (hse : start ≤ endB) :
    ∀ fuel j, j ≤ m → m + 2 ≤ j + fuel →
      filterlogGapLoop (delayOracle m vlog) query fuel j start endB last =
        some ((deliverBackfill last vlog).1, (deliverBackfill last vlog).2, m + 1,
          List.replicate (m + 1 - j) { query with fromBlock := some start }, false) := by
  intro fuel
  induction fuel with
  | zero => intro j h1 h2; omega
  | succ fuel ih =>
    intro j hj hf
    by_cases hjm : j < m
    · rw [filterlogGapLoop, if_pos hse]
      have hor : delayOracle m vlog j { query with fromBlock := some start } =
          QueryResult.transient := by
        simp [delayOracle, hjm]
      rw [hor, ih (j + 1) (by omega) (by omega)]
      dsimp only
      rw [show m + 1 - j = (m + 1 - (j + 1)) + 1 by omega, List.replicate_succ]
    · have hjeq : j = m := by omega
      subst hjeq
      have hor : delayOracle j vlog j { query with fromBlock := some start } =
          QueryResult.ok vlog := by
        simp [delayOracle]
      cases fuel with
      | zero => omega
      | succ f =>
        rw [filterlogGapLoop_ok (delayOracle j vlog) query f j start endB last vlog hse hor]
        rw [show j + 1 - j = 1 by omega]
        simp

theorem newHeadGapLoop_start_ge (oracle : Nat → Nat → HeadQueryResult)
    (fuel calls start endN : Nat) (h : endN ≤ start) :
    newHeadGapLoop oracle (fuel + 1) calls start endN =
      some ([], calls, [], false) := by
  rw [newHeadGapLoop, if_neg (by omega)]

theorem newHeadGapLoop_delay (m : Nat) (e : HeadQueryResult) (hd : EthHeader)
    (start : Nat) (he : e = HeadQueryResult.notFound ∨ e = HeadQueryResult.transient) :
    ∀ fuel j, j ≤ m → m + 2 ≤ j + fuel →
      newHeadGapLoop (headDelayOracle m e hd) fuel j start (start + 1) =
        some ([hd], m + 1, List.replicate (m + 1 - j) start, false) := by
  intro fuel
  induction fuel with
  | zero => intro j h1 h2; omega
  | succ fuel ih =>
    intro j hj hf
    by_cases hjm : j < m
    · rw [newHeadGapLoop, if_pos (by omega)]
      have hor : headDelayOracle m e hd j start = e := by
        simp [headDelayOracle, hjm]
      rw [hor]
      rcases he with he | he
      · subst he
        rw [ih (j + 1) (by omega) (by omega)]
        dsimp only
        rw [show m + 1 - j = (m + 1 - (j + 1)) + 1 by omega, List.replicate_succ]
      · subst he
        rw [ih (j + 1) (by omega) (by omega)]
        dsimp only
        rw [show m + 1 - j = (m + 1 - (j + 1)) + 1 by omega, List.replicate_succ]
    · have hjeq : j = m := by omega
      subst hjeq
      rw [newHeadGapLoop, if_pos (by omega)]
      have hor : headDelayOracle j e hd j start = HeadQueryResult.ok hd := by
        simp [headDelayOracle]
      rw [hor]
      cases fuel with
      | zero => omega
      | succ f =>
        rw [newHeadGapLoop_start_ge (headDelayOracle j e hd) f (j + 1) (start + 1)
          (start + 1) (by omega)]
        dsimp only
        rw [show j + 1 - j = 1 by omega]
        simp

/-! ## The block numbers fetched by the header backfill loop -/

theorem newHeadGapLoop_fetches (oracle : Nat → Nat → HeadQueryResult) :
    ∀ (fuel calls start endN : Nat) ds c fs ex,
      newHeadGapLoop oracle fuel calls start endN = some (ds, c, fs, ex) →
      ∀ f ∈ fs, start ≤ f ∧ f < endN := by
  intro fuel
  induction fuel with
  | zero => intro calls start endN ds c fs ex h; simp [newHeadGapLoop] at h
  | succ fuel ih =>
    intro calls start endN ds c fs ex h
    rw [newHeadGapLoop] at h
    by_cases hse : start < endN
    · rw [if_pos hse] at h
      cases horacle : oracle calls start with
      | cancelled =>
        rw [horacle] at h
        dsimp only at h
        cases h
        intro f hf
        simp only [List.mem_singleton] at hf
        subst hf
        exact ⟨Nat.le_refl _, hse⟩
      | notFound =>
        rw [horacle] at h
        cases hrec : newHeadGapLoop oracle fuel (calls + 1) start endN with
        | none => rw [hrec] at h; simp at h
        | some r =>
          obtain ⟨ds2, c2, fs2, ex2⟩ := r
          have := ih (calls + 1) start endN ds2 c2 fs2 ex2 hrec
          rw [hrec] at h
          dsimp only at h
          cases h
          intro f hf
          rcases List.mem_cons.mp hf with hf | hf
          · subst hf; exact ⟨Nat.le_refl _, hse⟩
          · exact this f hf
      | transient =>
        rw [horacle] at h
        cases hrec : newHeadGapLoop oracle fuel (calls + 1) start endN with
        | none => rw [hrec] at h; simp at h
        | some r =>
          obtain ⟨ds2, c2, fs2, ex2⟩ := r
          have := ih (calls + 1) start endN ds2 c2 fs2 ex2 hrec
          rw [hrec] at h
          dsimp only at h
          cases h
          intro f hf
          rcases List.mem_cons.mp hf with hf | hf
          · subst hf; exact ⟨Nat.le_refl _, hse⟩
          · exact this f hf
      | ok hd =>
        rw [horacle] at h
        cases hrec : newHeadGapLoop oracle fuel (calls + 1) (start + 1) endN with
        | none => rw [hrec] at h; simp at h
        | some r =>
          obtain ⟨ds2, c2, fs2, ex2⟩ := r
          have := ih (calls + 1) (start + 1) endN ds2 c2 fs2 ex2 hrec
          rw [hrec] at h
          dsimp only at h
          cases h
          intro f hf
          rcases List.mem_cons.mp hf with hf | hf
          · subst hf; exact ⟨Nat.le_refl _, hse⟩
          · have := this f hf; omega
    · rw [if_neg hse] at h
      cases h
      simp

theorem newHeadGapLoop_range :
    ∀ (fuel calls start endN : Nat), endN - start < fuel →
      newHeadGapLoop headNumOracle fuel calls start endN =
        some ((List.range' start (endN - start)).map (fun n => ⟨n⟩),
          calls + (endN - start), List.range' start (endN - start), false) := by
  intro fuel
  induction fuel with
  | zero => intro calls start endN h; omega
  | succ fuel ih =>
    intro calls start endN hf
    by_cases hse : start < endN
    · rw [newHeadGapLoop, if_pos hse]
      have : headNumOracle calls start = HeadQueryResult.ok ⟨start⟩ := rfl
      rw [this, ih (calls + 1) (start + 1) endN (by omega)]
      dsimp only
      rw [show endN - start = (endN - (start + 1)) + 1 by omega]
      rw [List.range'_succ start (endN - (start + 1)) 1]
      simp only [List.map_cons]
      rw [show calls + (endN - (start + 1) + 1) = calls + 1 + (endN - (start + 1)) by omega]
    · rw [newHeadGapLoop, if_neg hse]
      rw [show endN - start = 0 by omega]
      simp

/-! ## NonceManager map lemma -/

theorem lookup_mapSet (m : List (Nat × Nat)) (k v : Nat) :
    (mapSet m k v).lookup k = some v := by
  induction m with
  | nil => simp [mapSet, List.lookup]
  | cons p rest ih =>
    obtain ⟨k2, v2⟩ := p
    by_cases h : k2 = k
    · simp [mapSet, h, List.lookup]
    · rw [mapSet, if_neg h]
      rw [List.lookup]
      have : (k == k2) = false := by
        simp only [beq_eq_false_iff_ne, ne_eq]
        omega
      rw [this]
      exact ih

/-! ## Processing an eagerly backfilled history -/

theorem getLast?_cons_getLastD {α : Type} (a : α) (l : List α) :
    (a :: l).getLast? = some (l.getLastD a) := by
  induction l generalizing a with
  | nil => rfl
  | cons b t ih => rw [List.getLast?_cons_cons, ih b, List.getLastD_cons]

theorem chain'_keyLe_getLast :
    ∀ (l : List EthLog), List.Chain' keyLt l → ∀ x ∈ l,
      ∃ g, l.getLast? = some g ∧ keyLe x g := by
  intro l
  induction l with
  | nil => intro _ x hx; simp at hx
  | cons a t ih =>
    intro hc x hx
    cases t with
    | nil =>
      simp only [List.mem_singleton] at hx
      subst hx
      exact ⟨x, by simp, keyLe_refl x⟩
    | cons b t2 =>
      have hab : keyLt a b := (List.chain'_cons.mp hc).1
      have htail := (List.chain'_cons.mp hc).2
      rcases List.mem_cons.mp hx with hx | hx
      · subst hx
        obtain ⟨g, hg, hble⟩ := ih htail b (by simp)
        exact ⟨g, by rw [List.getLast?_cons_cons]; exact hg,
          Or.inl (keyLt_le_trans hab hble)⟩
      · obtain ⟨g, hg, hble⟩ := ih htail x hx
        exact ⟨g, by rw [List.getLast?_cons_cons]; exact hg, hble⟩

theorem filterlogLoop_append (oracle : Nat → FilterQuery → QueryResult)
    (query : FilterQuery) (fuel : Nat) :
    ∀ (l1 l2 : List EthLog) (st : FilterlogState),
      filterlogLoop oracle query fuel st (l1 ++ l2) =
        match filterlogLoop oracle query fuel st l1 with
        | none => none
        | some st1 => filterlogLoop oracle query fuel st1 l2 := by
  intro l1
  induction l1 with
  | nil => intro l2 st; rfl
  | cons c t ih =>
    intro l2 st
    rw [List.cons_append, filterlogLoop]
    cases hstep : filterlogStep oracle query fuel st c with
    | none => rw [filterlogLoop, hstep]
    | some st1 =>
      rw [filterlogLoop, hstep]
      dsimp only
      exact ih l2 st1

theorem filterlogLoop_hist (oracle : Nat → FilterQuery → QueryResult) (q : FilterQuery)
    (fuel : Nat) (h1 : EthLog) (t : List EthLog)
    (hs : List.Chain' keyLt (h1 :: t)) (hf : 2 ≤ fuel)
    (hor : ∀ c2 : Nat, oracle c2 { q with fromBlock := some h1.blockNumber } =
      QueryResult.ok (h1 :: t)) :
    ∀ (ds : List EthLog) (calls : Nat) (qs : List FilterQuery),
      ∃ calls2 qs2,
        filterlogLoop oracle q fuel ⟨ds, none, calls, qs, false⟩ (h1 :: t) =
          some ⟨ds ++ (h1 :: t), some (t.getLastD h1), calls2, qs2, false⟩ := by
  intro ds calls qs
  have hpair : List.Pairwise keyLt (h1 :: t) := List.chain'_iff_pairwise.mp hs
  have hstep1 : filterlogStep oracle q fuel ⟨ds, none, calls, qs, false⟩ h1 =
      some ⟨ds ++ [h1], some h1, calls, qs, false⟩ := by
    unfold filterlogStep
    simp
  cases t with
  | nil =>
    refine ⟨calls, qs, ?_⟩
    rw [filterlogLoop, hstep1]
    dsimp only
    rw [filterlogLoop]
    rfl
  | cons h2 t2 =>
    have hlt12 : keyLt h1 h2 := (List.chain'_cons.mp hs).1
    have hseen12 : hasSeen h1 h2 = false := (hasSeen_false_iff h1 h2).mpr hlt12
    have hble : h1.blockNumber ≤ h2.blockNumber := keyLt_block_le hlt12
    obtain ⟨f, hfeq⟩ : ∃ f, fuel = f + 2 := ⟨fuel - 2, by omega⟩
    have hdb1 : deliverBackfill h1 (h1 :: h2 :: t2) =
        ((h2 :: t2), ((h2 :: t2).getLastD h1)) := by
      rw [deliverBackfill, if_pos (hasSeen_self h1)]
      have hfst := deliverBackfill_of_chain (h2 :: t2) h1 hs
      have hsnd := (deliverBackfill_chain (h2 :: t2) h1).2
      rw [hfst] at hsnd
      rw [getLast?_cons_getLastD] at hsnd
      simp only [Option.some.injEq] at hsnd
      exact Prod.ext hfst hsnd.symm
    have hgap : filterlogGapLoop oracle q (f + 2) calls
        h1.blockNumber h2.blockNumber h1 =
        some ((h2 :: t2), ((h2 :: t2).getLastD h1), calls + 1,
          [{ q with fromBlock := some h1.blockNumber }], false) := by
      rw [filterlogGapLoop_ok oracle q f calls h1.blockNumber h2.blockNumber
        h1 (h1 :: h2 :: t2) hble (hor calls), hdb1]
    have hstep2 : filterlogStep oracle q fuel
        ⟨ds ++ [h1], some h1, calls, qs, false⟩ h2 =
        some ⟨ds ++ (h1 :: h2 :: t2), some ((h2 :: t2).getLastD h1), calls + 1,
          qs ++ [{ q with fromBlock := some h1.blockNumber }], false⟩ := by
      unfold filterlogStep
      simp only [Bool.false_eq_true, if_false, hseen12]
      rw [hfeq, hgap]
      dsimp only
      simp
    have hdrop : ∀ r ∈ t2, hasSeen ((h2 :: t2).getLastD h1) r = true := by
      intro r hr
      have hrm : r ∈ h1 :: h2 :: t2 := by simp [hr]
      obtain ⟨g, hg, hle⟩ := chain'_keyLe_getLast (h1 :: h2 :: t2) hs r hrm
      rw [getLast?_cons_getLastD] at hg
      simp only [Option.some.injEq] at hg
      rw [show (h2 :: t2).getLastD h1 = t2.getLastD h2 by rw [List.getLastD_cons]]
      rw [List.getLastD_cons] at hg
      rw [hg]
      exact (hasSeen_iff g r).mpr hle
    refine ⟨calls + 1, qs ++ [{ q with fromBlock := some h1.blockNumber }], ?_⟩
    rw [filterlogLoop, hstep1]
    dsimp only
    rw [filterlogLoop, hstep2]
    dsimp only
    rw [show (h2 :: t2).getLastD h1 = t2.getLastD h2 by rw [List.getLastD_cons]] at hdrop ⊢
    exact filterlogLoop_dropAll oracle q fuel t2 (ds ++ (h1 :: h2 :: t2))
      (t2.getLastD h2) (calls + 1) (qs ++ [{ q with fromBlock := some h1.blockNumber }])
      hdrop

/-! ## Claim theorems -/

/-- C1 (counterexample): for a log subscription with raw items
`[A(1,0,0), C(3,0,0)]` where the backfill query for the gap returns
exactly `[B(2,0,0)]`, the delivered sequence is `A, B` and not
`A, B, C` as the claim states: the originally triggering item is never
delivered by itself after the gap closes, only backfill-query results
are. -/
theorem claim1_counterexample :
    filterlogLoop (fun _ _ => QueryResult.ok [⟨2, 0, 0⟩]) ⟨some 1, none⟩ 5
      ⟨[], none, 0, [], false⟩ [⟨1, 0, 0⟩, ⟨3, 0, 0⟩] =
      some ⟨[⟨1, 0, 0⟩, ⟨2, 0, 0⟩], some ⟨2, 0, 0⟩, 1,
        [⟨some 1, none⟩], false⟩ ∧
    ([⟨1, 0, 0⟩, ⟨2, 0, 0⟩] : List EthLog) ≠ [⟨1, 0, 0⟩, ⟨2, 0, 0⟩, ⟨3, 0, 0⟩] := by
  decide

/-- C1 (amended): when a raw item `c` strictly greater than `lastSeen`
arrives and the backfill query succeeds with `vlog`, the items delivered
while closing the gap are exactly the members of `vlog` that pass the
duplicate check; the triggering item `c` is not delivered separately
after the loop (it is delivered only if it occurs in `vlog`). -/
theorem claim1_amended_gap_trigger_delivery
    (oracle : Nat → FilterQuery → QueryResult) (q : FilterQuery) (fuel : Nat)
    (ds : List EthLog) (last c : EthLog) (calls : Nat) (qs : List FilterQuery)
    (vlog : List EthLog)
    (hseen : hasSeen last c = false)
    (hor : oracle calls { q with fromBlock := some last.blockNumber } =
      QueryResult.ok vlog) :
    filterlogStep oracle q (fuel + 2) ⟨ds, some last, calls, qs, false⟩ c =
      some ⟨ds ++ (deliverBackfill last vlog).1, some (deliverBackfill last vlog).2,
        calls + 1, qs ++ [{ q with fromBlock := some last.blockNumber }], false⟩ := by
  unfold filterlogStep
  simp only [hseen, Bool.false_eq_true, if_false]
  rw [filterlogGapLoop_ok oracle q fuel calls last.blockNumber c.blockNumber last vlog
    (keyLt_block_le ((hasSeen_false_iff last c).mp hseen)) hor]

/-- C1 (witness for the amended theorem) at the claim's concrete inputs:
lastSeen `A(1,0,0)`, trigger `C(3,0,0)`, backfill result `[B(2,0,0)]`. -/
theorem claim1_amended_witness :
    filterlogStep (fun _ _ => QueryResult.ok [⟨2, 0, 0⟩]) ⟨some 1, none⟩ 2
      ⟨[⟨1, 0, 0⟩], some ⟨1, 0, 0⟩, 0, [], false⟩ ⟨3, 0, 0⟩ =
      some ⟨[⟨1, 0, 0⟩] ++ (deliverBackfill ⟨1, 0, 0⟩ [⟨2, 0, 0⟩]).1,
        some (deliverBackfill ⟨1, 0, 0⟩ [⟨2, 0, 0⟩]).2, 1,
        [] ++ [{ (⟨some 1, none⟩ : FilterQuery) with fromBlock := some 1 }], false⟩ :=
  claim1_amended_gap_trigger_delivery (fun _ _ => QueryResult.ok [⟨2, 0, 0⟩])
    ⟨some 1, none⟩ 0 [⟨1, 0, 0⟩] ⟨1, 0, 0⟩ ⟨3, 0, 0⟩ 0 [] [⟨2, 0, 0⟩]
    (by decide) (by decide)

/-- C3: in the `subscribeNewHead` resubscription goroutine, the wait on
the live session (the `select` with the single case `<-sub.Err()`) has
no branch for the cancellation signal, so that blocking wait never
observes cancellation and the goroutine cannot exit there; the log
variant's corresponding `select` does observe it and stops.  This
contradicts the claim (and spec sections 5 and 8) that every blocking
wait in both variants observes the cancellation signal and both
background tasks exit. -/
theorem claim3_head_supervisor_misses_cancellation :
    newHeadResubStep SupState.active SupEvent.ctxDone = none ∧
    filterlogResubStep SupState.active SupEvent.ctxDone = some SupState.stopped ∧
    newHeadResubStep SupState.active SupEvent.sessionErr = some SupState.backoff := by
  decide

/-- C4 (counterexample): with lastSeen at block 5 and a triggering
header at block 9, the header backfill fetches exactly blocks
`[6, 7, 8]` — the range neither starts at lastSeen's block 5 nor ends at
the triggering block 9, contradicting the claimed inclusive range
`[5, 9]`.  In the log variant the query issued for the same gap has
FromBlock 5 but keeps the original criterion's ToBlock (here 100), not
the triggering item's block 9. -/
theorem claim4_counterexample :
    newHeadLoop headNumOracle 10 ⟨[], none, 0, [], false⟩ [⟨5⟩, ⟨9⟩] =
      some ⟨[⟨5⟩, ⟨6⟩, ⟨7⟩, ⟨8⟩, ⟨9⟩], some ⟨9⟩, 3, [6, 7, 8], false⟩ ∧
    (5 : Nat) ∉ [6, 7, 8] ∧ (9 : Nat) ∉ [6, 7, 8] ∧
    filterlogLoop (fun _ _ => QueryResult.ok []) ⟨some 0, some 100⟩ 5
      ⟨[], none, 0, [], false⟩ [⟨5, 0, 0⟩, ⟨9, 0, 0⟩] =
      some ⟨[⟨5, 0, 0⟩], some ⟨5, 0, 0⟩, 1, [⟨some 5, some 100⟩], false⟩ ∧
    (some 100 : Option Nat) ≠ some 9 := by
  decide

/-- C4 (amended): in a log gap pass every query issued has
`FromBlock = lastSeen.blockNumber` (the last-delivered block re-included
deliberately) and `ToBlock` equal to the original criterion's ToBlock,
not the triggering block; in a header gap pass every block number
fetched lies in `[lastSeen.blockNumber + 1, target.blockNumber - 1]`,
and with a well-behaved client the fetched numbers are exactly that
range. -/
theorem claim4_amended_backfill_ranges :
    (∀ (oracle : Nat → FilterQuery → QueryResult) (q : FilterQuery) (fuel : Nat)
       (ds : List EthLog) (last c : EthLog) (calls : Nat) (qs : List FilterQuery)
       (st2 : FilterlogState),
       hasSeen last c = false →
       filterlogStep oracle q fuel ⟨ds, some last, calls, qs, false⟩ c = some st2 →
       ∃ newqs, st2.queries = qs ++ newqs ∧ newqs ≠ [] ∧
         ∀ q2 ∈ newqs, q2 = { q with fromBlock := some last.blockNumber }) ∧
    (∀ (oracle : Nat → Nat → HeadQueryResult) (fuel : Nat) (ds : List EthHeader)
       (last c : EthHeader) (calls : Nat) (fs : List Nat) (st2 : NewHeadState),
       ¬ c.number ≤ last.number →
       newHeadStep oracle fuel ⟨ds, some last, calls, fs, false⟩ c = some st2 →
       ∃ newfs, st2.fetches = fs ++ newfs ∧
         ∀ f ∈ newfs, last.number + 1 ≤ f ∧ f < c.number) ∧
    (∀ (fuel calls start endN : Nat), endN - start < fuel →
       newHeadGapLoop headNumOracle fuel calls start endN =
         some ((List.range' start (endN - start)).map (fun n => ⟨n⟩),
           calls + (endN - start), List.range' start (endN - start), false)) := by
  refine ⟨?_, ?_, newHeadGapLoop_range⟩
  · intro oracle q fuel ds last c calls qs st2 hseen h
    unfold filterlogStep at h
    simp only [hseen, Bool.false_eq_true, if_false] at h
    cases hgl : filterlogGapLoop oracle q fuel calls last.blockNumber c.blockNumber last with
    | none => rw [hgl] at h; simp at h
    | some r =>
      obtain ⟨ds2, l2, c2, qs2, ex2⟩ := r
      have hmem := filterlogGapLoop_queries oracle q fuel calls
        last.blockNumber c.blockNumber last ds2 l2 c2 qs2 ex2 hgl
      have hnn : qs2 ≠ [] := by
        cases fuel with
        | zero => simp [filterlogGapLoop] at hgl
        | succ f =>
          exact filterlogGapLoop_queries_ne_nil oracle q f calls
            last.blockNumber c.blockNumber last ds2 l2 c2 qs2 ex2
            (keyLt_block_le ((hasSeen_false_iff last c).mp hseen)) hgl
      rw [hgl] at h
      dsimp only at h
      cases h
      exact ⟨qs2, rfl, hnn, hmem⟩
  · intro oracle fuel ds last c calls fs st2 hgt h
    unfold newHeadStep at h
    simp only at h
    rw [if_neg hgt] at h
    cases hgl : newHeadGapLoop oracle fuel calls (last.number + 1) c.number with
    | none => rw [hgl] at h; simp at h
    | some r =>
      obtain ⟨ds2, c2, fs2, ex2⟩ := r
      have hmem := newHeadGapLoop_fetches oracle fuel calls (last.number + 1)
        c.number ds2 c2 fs2 ex2 hgl
      rw [hgl] at h
      cases ex2 with
      | true =>
        dsimp only at h
        cases h
        exact ⟨fs2, rfl, hmem⟩
      | false =>
        dsimp only at h
        cases h
        exact ⟨fs2, rfl, hmem⟩

/-- C4 (witness for the amended theorem): gap from lastSeen block 5 to
triggering block 9, log query keeping ToBlock 100, header fetches
`[6, 7, 8]`. -/
theorem claim4_amended_witness :
    (∃ newqs, ([⟨some 5, some 100⟩] : List FilterQuery) = [] ++ newqs ∧ newqs ≠ [] ∧
      ∀ q2 ∈ newqs, q2 = { (⟨some 0, some 100⟩ : FilterQuery) with
        fromBlock := some (⟨5, 0, 0⟩ : EthLog).blockNumber }) ∧
    ∃ newfs, ([6, 7, 8] : List Nat) = [] ++ newfs ∧
      ∀ f ∈ newfs, (⟨5⟩ : EthHeader).number + 1 ≤ f ∧ f < (⟨9⟩ : EthHeader).number := by
  constructor
  · exact claim4_amended_backfill_ranges.1 (fun _ _ => QueryResult.ok []) ⟨some 0, some 100⟩
      5 [⟨5, 0, 0⟩] ⟨5, 0, 0⟩ ⟨9, 0, 0⟩ 0 []
      ⟨[⟨5, 0, 0⟩], some ⟨5, 0, 0⟩, 1, [⟨some 5, some 100⟩], false⟩
      (by decide) (by decide)
  · exact claim4_amended_backfill_ranges.2.1 headNumOracle 10 [⟨5⟩] ⟨5⟩ ⟨9⟩ 0 []
      ⟨[⟨5⟩, ⟨6⟩, ⟨7⟩, ⟨8⟩, ⟨9⟩], some ⟨9⟩, 3, [6, 7, 8], false⟩
      (by decide) (by decide)

/-- C10: `SubscribeNewHead` always returns a nil error, for every oracle
and raw stream; a failed session open is not surfaced but sends the
supervisor to the backoff state, after which the sleep leads back to
connecting (the retry), while a cancellation-class open error stops it. -/
theorem claim10_subscribe_newhead_nil :
    (∀ (oracle : Nat → Nat → HeadQueryResult) (fuel : Nat) (live : List EthHeader),
       (SubscribeNewHead oracle fuel live).err = false) ∧
    newHeadResubStep SupState.connecting SupEvent.openErr = some SupState.backoff ∧
    newHeadResubStep SupState.backoff SupEvent.sleepDone = some SupState.connecting ∧
    newHeadResubStep SupState.connecting SupEvent.openCancelled = some SupState.stopped :=
  ⟨fun _ _ _ => rfl, rfl, rfl, rfl⟩

/-- C2: over any raw-item sequence (arbitrary interleavings and
duplicates) and any backfill oracle, the events the gap detector sends
to the consumer channel are strictly increasing by sequence key —
lexicographic `(blockNumber, txIndex, index)` for logs, `blockNumber`
for headers (the header oracle satisfying the collaborator contract
that `HeaderByNumber n` returns block `n`'s header) — hence no sequence
key is delivered twice, and after each raw item is processed the
cursor equals the last delivered item. -/
theorem claim2_delivery_strictly_increasing :
    (∀ (oracle : Nat → FilterQuery → QueryResult) (q : FilterQuery)
       (fuel calls0 : Nat) (qs0 : List FilterQuery) (raw : List EthLog)
       (st : FilterlogState),
       filterlogLoop oracle q fuel ⟨[], none, calls0, qs0, false⟩ raw = some st →
       List.Chain' keyLt st.delivered ∧ (st.delivered.map seqKey).Nodup ∧
         st.lastLog = st.delivered.getLast?) ∧
    (∀ (oracle : Nat → Nat → HeadQueryResult) (fuel calls0 : Nat) (fs0 : List Nat)
       (raw : List EthHeader) (st : NewHeadState),
       (∀ i n h, oracle i n = HeadQueryResult.ok h → h.number = n) →
       newHeadLoop oracle fuel ⟨[], none, calls0, fs0, false⟩ raw = some st →
       List.Chain' numLt st.delivered ∧ (st.delivered.map EthHeader.number).Nodup ∧
         (st.exited = false → st.lastHeader = st.delivered.getLast?)) := by
  constructor
  · intro oracle q fuel calls0 qs0 raw st h
    have hinv : FilterlogInv st :=
      filterlogLoop_inv oracle q fuel raw ⟨[], none, calls0, qs0, false⟩ st
        ⟨List.chain'_nil, rfl⟩ h
    refine ⟨hinv.1, ?_, hinv.2⟩
    exact List.pairwise_map.mpr
      ((List.chain'_iff_pairwise.mp hinv.1).imp fun hlt => keyLt_key_ne hlt)
  · intro oracle fuel calls0 fs0 raw st hok h
    have hinv : NewHeadInv st :=
      newHeadLoop_inv oracle hok fuel raw ⟨[], none, calls0, fs0, false⟩ st
        ⟨List.chain'_nil, fun _ => rfl⟩ h
    refine ⟨hinv.1, ?_, hinv.2⟩
    exact List.pairwise_map.mpr
      ((List.chain'_iff_pairwise.mp hinv.1).imp fun hlt => numLt_ne hlt)

/-- C2 (witness): the invariant evaluated on the concrete runs with a
gap each: logs `[A(1), C(3)]` backfilled with `[B(2)]` deliver `A, B`;
headers `[5, 9]` deliver `5..9`. -/
theorem claim2_witness :
    (List.Chain' keyLt [⟨1, 0, 0⟩, ⟨2, 0, 0⟩] ∧
      (([⟨1, 0, 0⟩, ⟨2, 0, 0⟩] : List EthLog).map seqKey).Nodup ∧
      (some ⟨2, 0, 0⟩ : Option EthLog) =
        ([⟨1, 0, 0⟩, ⟨2, 0, 0⟩] : List EthLog).getLast?) ∧
    (List.Chain' numLt [⟨5⟩, ⟨6⟩, ⟨7⟩, ⟨8⟩, ⟨9⟩] ∧
      (([⟨5⟩, ⟨6⟩, ⟨7⟩, ⟨8⟩, ⟨9⟩] : List EthHeader).map EthHeader.number).Nodup ∧
      (false = false → (some ⟨9⟩ : Option EthHeader) =
        ([⟨5⟩, ⟨6⟩, ⟨7⟩, ⟨8⟩, ⟨9⟩] : List EthHeader).getLast?)) := by
  constructor
  · exact claim2_delivery_strictly_increasing.1 (fun _ _ => QueryResult.ok [⟨2, 0, 0⟩])
      ⟨some 1, none⟩ 5 0 [] [⟨1, 0, 0⟩, ⟨3, 0, 0⟩]
      ⟨[⟨1, 0, 0⟩, ⟨2, 0, 0⟩], some ⟨2, 0, 0⟩, 1, [⟨some 1, none⟩], false⟩ (by decide)
  · exact claim2_delivery_strictly_increasing.2 headNumOracle 10 0 [] [⟨5⟩, ⟨9⟩]
      ⟨[⟨5⟩, ⟨6⟩, ⟨7⟩, ⟨8⟩, ⟨9⟩], some ⟨9⟩, 3, [6, 7, 8], false⟩
      (fun i n h hh => by cases hh; rfl) (by decide)

/-- C5: during a backfill pass, a cancellation-class failure makes the
gap detector exit at once with nothing further delivered (and an exited
detector processes no more raw items); any other failure is retried
after the fixed delay on the same range, for every retry count `m`
(no upper bound), never surfacing to the consumer: after `m` transient
failures the pass delivers exactly what an immediately succeeding pass
would, having issued `m + 1` identical queries (logs) or fetches
(headers). -/
theorem claim5_backfill_error_handling :
    (∀ (q : FilterQuery) (fuel : Nat) (ds : List EthLog) (last c : EthLog)
       (calls : Nat) (qs : List FilterQuery),
       hasSeen last c = false →
       filterlogStep (fun _ _ => QueryResult.cancelled) q (fuel + 1)
         ⟨ds, some last, calls, qs, false⟩ c =
         some ⟨ds, some last, calls + 1,
           qs ++ [{ q with fromBlock := some last.blockNumber }], true⟩) ∧
    (∀ (oracle : Nat → FilterQuery → QueryResult) (q : FilterQuery) (fuel : Nat)
       (raw : List EthLog) (st : FilterlogState), st.exited = true →
       filterlogLoop oracle q fuel st raw = some st) ∧
    (∀ (m : Nat) (vlog : List EthLog) (q : FilterQuery) (fuel : Nat)
       (ds : List EthLog) (last c : EthLog),
       hasSeen last c = false → m + 2 ≤ fuel →
       filterlogStep (delayOracle m vlog) q fuel ⟨ds, some last, 0, [], false⟩ c =
         some ⟨ds ++ (deliverBackfill last vlog).1, some (deliverBackfill last vlog).2,
           m + 1,
           List.replicate (m + 1) { q with fromBlock := some last.blockNumber }, false⟩) ∧
    (∀ (fuel : Nat) (ds : List EthHeader) (last c : EthHeader) (calls : Nat)
       (fs : List Nat),
       last.number + 1 < c.number →
       newHeadStep (fun _ _ => HeadQueryResult.cancelled) (fuel + 1)
         ⟨ds, some last, calls, fs, false⟩ c =
         some ⟨ds, some last, calls + 1, fs ++ [last.number + 1], true⟩) ∧
    (∀ (oracle : Nat → Nat → HeadQueryResult) (fuel : Nat) (raw : List EthHeader)
       (st : NewHeadState), st.exited = true →
       newHeadLoop oracle fuel st raw = some st) ∧
    (∀ (m : Nat) (e : HeadQueryResult) (hd : EthHeader) (fuel : Nat)
       (ds : List EthHeader) (last c : EthHeader) (fs : List Nat),
       (e = HeadQueryResult.notFound ∨ e = HeadQueryResult.transient) →
       c.number = last.number + 2 → m + 2 ≤ fuel →
       newHeadStep (headDelayOracle m e hd) fuel ⟨ds, some last, 0, fs, false⟩ c =
         some ⟨ds ++ [hd] ++ [c], some c, m + 1,
           fs ++ List.replicate (m + 1) (last.number + 1), false⟩) := by
  refine ⟨?_, filterlogLoop_exited, ?_, ?_, newHeadLoop_exited, ?_⟩
  · intro q fuel ds last c calls qs hseen
    unfold filterlogStep
    simp only [hseen, Bool.false_eq_true, if_false]
    rw [filterlogGapLoop, if_pos (keyLt_block_le ((hasSeen_false_iff last c).mp hseen))]
    dsimp only
    simp
  · intro m vlog q fuel ds last c hseen hfuel
    unfold filterlogStep
    simp only [hseen, Bool.false_eq_true, if_false]
    rw [filterlogGapLoop_delay m vlog q last.blockNumber c.blockNumber last
      (keyLt_block_le ((hasSeen_false_iff last c).mp hseen)) fuel 0 (by omega) (by omega)]
    dsimp only
    rw [show m + 1 - 0 = m + 1 by omega]
    simp
  · intro fuel ds last c calls fs hgt
    unfold newHeadStep
    simp only
    rw [if_neg (show ¬ c.number ≤ last.number by omega)]
    rw [newHeadGapLoop, if_pos (show last.number + 1 < c.number by omega)]
    dsimp only
    simp
  · intro m e hd fuel ds last c fs he hc hfuel
    unfold newHeadStep
    simp only
    rw [if_neg (show ¬ c.number ≤ last.number by omega)]
    rw [show c.number = (last.number + 1) + 1 by omega]
    rw [newHeadGapLoop_delay m e hd (last.number + 1) he fuel 0 (by omega) (by omega)]
    dsimp only
    rw [show m + 1 - 0 = m + 1 by omega]
    simp [hc]

/-- C5 (witness): cancellation exits at once; two transient failures
then success retries the same range three times and delivers the
backfilled item. -/
theorem claim5_witness :
    filterlogStep (fun _ _ => QueryResult.cancelled) ⟨some 1, none⟩ 4
      ⟨[⟨1, 0, 0⟩], some ⟨1, 0, 0⟩, 0, [], false⟩ ⟨3, 0, 0⟩ =
      some ⟨[⟨1, 0, 0⟩], some ⟨1, 0, 0⟩, 1,
        [] ++ [{ (⟨some 1, none⟩ : FilterQuery) with fromBlock := some 1 }], true⟩ ∧
    filterlogStep (delayOracle 2 [⟨2, 0, 0⟩]) ⟨some 1, none⟩ 4
      ⟨[⟨1, 0, 0⟩], some ⟨1, 0, 0⟩, 0, [], false⟩ ⟨3, 0, 0⟩ =
      some ⟨[⟨1, 0, 0⟩] ++ (deliverBackfill ⟨1, 0, 0⟩ [⟨2, 0, 0⟩]).1,
        some (deliverBackfill ⟨1, 0, 0⟩ [⟨2, 0, 0⟩]).2, 3,
        List.replicate 3 { (⟨some 1, none⟩ : FilterQuery) with fromBlock := some 1 },
        false⟩ := by
  constructor
  · exact claim5_backfill_error_handling.1 ⟨some 1, none⟩ 3 [⟨1, 0, 0⟩] ⟨1, 0, 0⟩
      ⟨3, 0, 0⟩ 0 [] (by decide)
  · exact claim5_backfill_error_handling.2.2.1 2 [⟨2, 0, 0⟩] ⟨some 1, none⟩ 4
      [⟨1, 0, 0⟩] ⟨1, 0, 0⟩ ⟨3, 0, 0⟩ (by decide) (by omega)

/-- C6: `hasSeen` computes exactly the spec's lexicographic order
(`hasSeen last c = true` iff `c`'s sequence key is at most `last`'s);
with the cursor unset a raw item is delivered and becomes the cursor; in
both variants, with a set cursor, a raw item leaves the detector state
completely unchanged (dropped without delivery) precisely when its
sequence key is at most the cursor's — lexicographic for logs, block
number alone for headers. -/
theorem claim6_duplicate_classification :
    (∀ last c : EthLog, hasSeen last c = true ↔ keyLe c last) ∧
    (∀ (oracle : Nat → FilterQuery → QueryResult) (q : FilterQuery) (fuel : Nat)
       (ds : List EthLog) (calls : Nat) (qs : List FilterQuery) (c : EthLog),
       filterlogStep oracle q fuel ⟨ds, none, calls, qs, false⟩ c =
         some ⟨ds ++ [c], some c, calls, qs, false⟩) ∧
    (∀ (oracle : Nat → FilterQuery → QueryResult) (q : FilterQuery) (fuel : Nat)
       (ds : List EthLog) (last : EthLog) (calls : Nat) (qs : List FilterQuery)
       (c : EthLog),
       filterlogStep oracle q (fuel + 1) ⟨ds, some last, calls, qs, false⟩ c =
         some ⟨ds, some last, calls, qs, false⟩ ↔ keyLe c last) ∧
    (∀ (oracle : Nat → Nat → HeadQueryResult) (fuel : Nat) (ds : List EthHeader)
       (calls : Nat) (fs : List Nat) (c : EthHeader),
       newHeadStep oracle fuel ⟨ds, none, calls, fs, false⟩ c =
         some ⟨ds ++ [c], some c, calls, fs, false⟩) ∧
    (∀ (oracle : Nat → Nat → HeadQueryResult) (fuel : Nat) (ds : List EthHeader)
       (last : EthHeader) (calls : Nat) (fs : List Nat) (c : EthHeader),
       newHeadStep oracle (fuel + 1) ⟨ds, some last, calls, fs, false⟩ c =
         some ⟨ds, some last, calls, fs, false⟩ ↔ c.number ≤ last.number) := by
  refine ⟨hasSeen_iff, ?_, ?_, ?_, ?_⟩
  · intro oracle q fuel ds calls qs c
    unfold filterlogStep
    simp
  · intro oracle q fuel ds last calls qs c
    constructor
    · intro heq
      by_contra hnle
      have hseen : hasSeen last c = false := by
        cases h2 : hasSeen last c with
        | true => exact absurd ((hasSeen_iff last c).mp h2) hnle
        | false => rfl
      unfold filterlogStep at heq
      simp only [hseen, Bool.false_eq_true, if_false] at heq
      cases hgl : filterlogGapLoop oracle q (fuel + 1) calls
          last.blockNumber c.blockNumber last with
      | none => rw [hgl] at heq; simp at heq
      | some r =>
        obtain ⟨ds2, l2, c2, qs2, ex2⟩ := r
        have hnn : qs2 ≠ [] :=
          filterlogGapLoop_queries_ne_nil oracle q fuel calls
            last.blockNumber c.blockNumber last ds2 l2 c2 qs2 ex2
            (keyLt_block_le ((hasSeen_false_iff last c).mp hseen)) hgl
        rw [hgl] at heq
        dsimp only at heq
        simp only [Option.some.injEq, FilterlogState.mk.injEq] at heq
        have := congrArg List.length heq.2.2.2.1
        simp at this
        exact hnn this
    · intro hle
      unfold filterlogStep
      simp only [(hasSeen_iff last c).mpr hle, if_true]
      simp
  · intro oracle fuel ds calls fs c
    unfold newHeadStep
    simp
  · intro oracle fuel ds last calls fs c
    constructor
    · intro heq
      by_contra hnle
      unfold newHeadStep at heq
      simp only [Bool.false_eq_true, if_false] at heq
      rw [if_neg hnle] at heq
      by_cases hadj : c.number = last.number + 1
      · cases fuel with
        | zero =>
          rw [newHeadGapLoop_start_ge oracle 0 calls (last.number + 1) c.number
            (by omega)] at heq
          dsimp only at heq
          simp only [Option.some.injEq, NewHeadState.mk.injEq] at heq
          have := congrArg List.length heq.1
          simp at this
        | succ f =>
          rw [newHeadGapLoop_start_ge oracle (f + 1) calls (last.number + 1) c.number
            (by omega)] at heq
          dsimp only at heq
          simp only [Option.some.injEq, NewHeadState.mk.injEq] at heq
          have := congrArg List.length heq.1
          simp at this
      · have hlt : last.number + 1 < c.number := by omega
        cases hgl : newHeadGapLoop oracle (fuel + 1) calls (last.number + 1)
            c.number with
        | none => rw [hgl] at heq; simp at heq
        | some r =>
          obtain ⟨ds2, c2, fs2, ex2⟩ := r
          have hnn : fs2 ≠ [] := by
            rw [newHeadGapLoop] at hgl
            rw [if_pos hlt] at hgl
            cases horacle : oracle calls (last.number + 1) with
            | cancelled =>
              rw [horacle] at hgl
              dsimp only at hgl
              cases hgl
              simp
            | notFound =>
              rw [horacle] at hgl
              cases hrec : newHeadGapLoop oracle fuel (calls + 1) (last.number + 1)
                  c.number with
              | none => rw [hrec] at hgl; simp at hgl
              | some r2 =>
                obtain ⟨ds3, c3, fs3, ex3⟩ := r2
                rw [hrec] at hgl
                dsimp only at hgl
                cases hgl
                simp
            | transient =>
              rw [horacle] at hgl
              cases hrec : newHeadGapLoop oracle fuel (calls + 1) (last.number + 1)
                  c.number with
              | none => rw [hrec] at hgl; simp at hgl
              | some r2 =>
                obtain ⟨ds3, c3, fs3, ex3⟩ := r2
                rw [hrec] at hgl
                dsimp only at hgl
                cases hgl
                simp
            | ok hd =>
              rw [horacle] at hgl
              cases hrec : newHeadGapLoop oracle fuel (calls + 1) (last.number + 2)
                  c.number with
              | none => rw [hrec] at hgl; simp at hgl
              | some r2 =>
                obtain ⟨ds3, c3, fs3, ex3⟩ := r2
                rw [hrec] at hgl
                dsimp only at hgl
                cases hgl
                simp
          rw [hgl] at heq
          cases ex2 with
          | true =>
            dsimp only at heq
            simp only [Option.some.injEq, NewHeadState.mk.injEq] at heq
            have := congrArg List.length heq.2.2.2.1
            simp at this
            exact hnn this
          | false =>
            dsimp only at heq
            simp only [Option.some.injEq, NewHeadState.mk.injEq] at heq
            have := congrArg List.length heq.2.2.2.1
            simp at this
            exact hnn this
    · intro hle
      unfold newHeadStep
      simp only
      rw [if_pos hle]
      simp

/-- C6 (witness): duplicate classification evaluated concretely: the
lexicographic test, a first delivery, and a drop of an equal-key item in
each variant. -/
theorem claim6_witness :
    (hasSeen ⟨3, 1, 1⟩ ⟨3, 1, 1⟩ = true ↔ keyLe ⟨3, 1, 1⟩ ⟨3, 1, 1⟩) ∧
    (filterlogStep (fun _ _ => QueryResult.ok []) ⟨none, none⟩ 3
      ⟨[], none, 0, [], false⟩ ⟨1, 0, 0⟩ =
      some ⟨[] ++ [⟨1, 0, 0⟩], some ⟨1, 0, 0⟩, 0, [], false⟩) ∧
    (filterlogStep (fun _ _ => QueryResult.ok []) ⟨none, none⟩ 3
      ⟨[⟨1, 0, 0⟩], some ⟨1, 0, 0⟩, 0, [], false⟩ ⟨1, 0, 0⟩ =
      some ⟨[⟨1, 0, 0⟩], some ⟨1, 0, 0⟩, 0, [], false⟩ ↔
        keyLe ⟨1, 0, 0⟩ ⟨1, 0, 0⟩) ∧
    (newHeadStep headNumOracle 3 ⟨[], none, 0, [], false⟩ ⟨5⟩ =
      some ⟨[] ++ [⟨5⟩], some ⟨5⟩, 0, [], false⟩) ∧
    (newHeadStep headNumOracle 3 ⟨[⟨5⟩], some ⟨5⟩, 0, [], false⟩ ⟨5⟩ =
      some ⟨[⟨5⟩], some ⟨5⟩, 0, [], false⟩ ↔ (⟨5⟩ : EthHeader).number ≤
        (⟨5⟩ : EthHeader).number) :=
  ⟨claim6_duplicate_classification.1 ⟨3, 1, 1⟩ ⟨3, 1, 1⟩,
   claim6_duplicate_classification.2.1 (fun _ _ => QueryResult.ok []) ⟨none, none⟩ 3
     [] 0 [] ⟨1, 0, 0⟩,
   claim6_duplicate_classification.2.2.1 (fun _ _ => QueryResult.ok []) ⟨none, none⟩ 2
     [⟨1, 0, 0⟩] ⟨1, 0, 0⟩ 0 [] ⟨1, 0, 0⟩,
   claim6_duplicate_classification.2.2.2.1 headNumOracle 3 [] 0 [] ⟨5⟩,
   claim6_duplicate_classification.2.2.2.2 headNumOracle 2 [⟨5⟩] ⟨5⟩ 0 [] ⟨5⟩⟩

/-- C8: `SubscribeFilterlogs` returns a non-nil error exactly when the
eager backfill query fails; in that case no goroutines are started and
the detector state is the untouched initial one (nothing delivered);
and a detector that exits early does so only because some backfill call
returned a cancellation-class error — transient failures and remote
errors never surface mid-stream. -/
theorem claim8_subscribe_error :
    (∀ (oracle : Nat → FilterQuery → QueryResult) (q : FilterQuery) (fuel : Nat)
       (live : List EthLog),
       (SubscribeFilterlogs oracle q fuel live).err = true ↔
         ∀ logs, oracle 0 q ≠ QueryResult.ok logs) ∧
    (∀ (oracle : Nat → FilterQuery → QueryResult) (q : FilterQuery) (fuel : Nat)
       (live : List EthLog),
       (SubscribeFilterlogs oracle q fuel live).err = true →
       (SubscribeFilterlogs oracle q fuel live).tasksStarted = 0 ∧
       (SubscribeFilterlogs oracle q fuel live).run =
         some ⟨[], none, 1, [q], false⟩) ∧
    (∀ (oracle : Nat → FilterQuery → QueryResult) (q : FilterQuery) (fuel : Nat)
       (raw : List EthLog) (st0 st : FilterlogState),
       filterlogLoop oracle q fuel st0 raw = some st → st.exited = true →
       st0.exited = true ∨ ∃ i q2, oracle i q2 = QueryResult.cancelled) := by
  refine ⟨?_, ?_, filterlogLoop_exit_cancel⟩
  · intro oracle q fuel live
    unfold SubscribeFilterlogs
    cases horacle : oracle 0 q with
    | ok logs =>
      dsimp only
      exact ⟨fun h => by simp at h, fun h => absurd rfl (h logs)⟩
    | cancelled =>
      dsimp only
      exact ⟨fun _ logs => by simp, fun _ => rfl⟩
    | transient =>
      dsimp only
      exact ⟨fun _ logs => by simp, fun _ => rfl⟩
  · intro oracle q fuel live
    unfold SubscribeFilterlogs
    cases horacle : oracle 0 q with
    | ok logs => dsimp only; intro h; simp at h
    | cancelled => dsimp only; intro _; exact ⟨rfl, rfl⟩
    | transient => dsimp only; intro _; exact ⟨rfl, rfl⟩

/-- C8 (witness): a subscription whose eager query fails with a
transient error returns a non-nil error, starts nothing and delivers
nothing; and a concrete exited run traces back to a cancelled call. -/
theorem claim8_witness :
    ((SubscribeFilterlogs (fun _ _ => QueryResult.transient) ⟨none, none⟩ 3
        []).tasksStarted = 0 ∧
      (SubscribeFilterlogs (fun _ _ => QueryResult.transient) ⟨none, none⟩ 3 []).run =
        some ⟨[], none, 1, [⟨none, none⟩], false⟩) ∧
    ((⟨[], none, 0, [], false⟩ : FilterlogState).exited = true ∨
      ∃ i q2, (fun _ _ => QueryResult.cancelled : Nat → FilterQuery → QueryResult) i q2 =
        QueryResult.cancelled) :=
  ⟨claim8_subscribe_error.2.1 (fun _ _ => QueryResult.transient) ⟨none, none⟩ 3 []
     (by decide),
   claim8_subscribe_error.2.2 (fun _ _ => QueryResult.cancelled) ⟨some 1, none⟩ 3
     [⟨1, 0, 0⟩, ⟨3, 0, 0⟩] ⟨[], none, 0, [], false⟩
     ⟨[⟨1, 0, 0⟩], some ⟨1, 0, 0⟩, 1, [⟨some 1, none⟩], true⟩
     (by decide) (by decide)⟩

/-- C9: `NonceManager.PendingNonceAt` queries the remote client only
when the account is uncached (in particular never after a successful
call); an uncached account's nonce comes from the remote client, and on
remote failure the error is returned with the map unchanged; a cached
account's call returns the cached value independently of the client and
bumps the cache, so each successful call returns exactly one more than
the previous successful call for that account. -/
theorem claim9_nonce_manager :
    (∀ (client : Nat → Except Unit Nat) (m : List (Nat × Nat)) (acct n : Nat),
       m.lookup acct = none → client acct = Except.ok n →
       PendingNonceAt client m acct = (Except.ok n, mapSet m acct (n + 1))) ∧
    (∀ (client : Nat → Except Unit Nat) (m : List (Nat × Nat)) (acct : Nat)
       (e : Unit),
       m.lookup acct = none → client acct = Except.error e →
       PendingNonceAt client m acct = (Except.error e, m)) ∧
    (∀ (client client2 : Nat → Except Unit Nat) (m : List (Nat × Nat)) (acct v : Nat),
       m.lookup acct = some v →
       PendingNonceAt client m acct = (Except.ok v, mapSet m acct (v + 1)) ∧
       PendingNonceAt client m acct = PendingNonceAt client2 m acct) ∧
    (∀ (client client2 : Nat → Except Unit Nat) (m m2 : List (Nat × Nat))
       (acct v : Nat),
       PendingNonceAt client m acct = (Except.ok v, m2) →
       PendingNonceAt client2 m2 acct = (Except.ok (v + 1), mapSet m2 acct (v + 2))) := by
  refine ⟨?_, ?_, ?_, ?_⟩
  · intro client m acct n hl hc
    unfold PendingNonceAt
    rw [hl, hc]
  · intro client m acct e hl hc
    unfold PendingNonceAt
    rw [hl, hc]
  · intro client client2 m acct v hl
    unfold PendingNonceAt
    rw [hl]
    exact ⟨rfl, rfl⟩
  · intro client client2 m m2 acct v h
    have hm2 : m2.lookup acct = some (v + 1) := by
      unfold PendingNonceAt at h
      cases hl : m.lookup acct with
      | some v0 =>
        rw [hl] at h
        simp only [Prod.mk.injEq, Except.ok.injEq] at h
        obtain ⟨h1, h2⟩ := h
        subst h1
        rw [← h2]
        exact lookup_mapSet m acct _
      | none =>
        rw [hl] at h
        cases hc : client acct with
        | error e => rw [hc] at h; simp at h
        | ok n =>
          rw [hc] at h
          simp only [Prod.mk.injEq, Except.ok.injEq] at h
          obtain ⟨h1, h2⟩ := h
          subst h1
          rw [← h2]
          exact lookup_mapSet m acct _
    unfold PendingNonceAt
    rw [hm2]

/-- C9 (witness): a fresh account whose remote nonce is 7 yields 7 then
8 on the next call, with the cache advanced accordingly. -/
theorem claim9_witness :
    PendingNonceAt (fun _ => Except.ok 7) [] 4 = (Except.ok 7, mapSet [] 4 8) ∧
    PendingNonceAt (fun _ => Except.error ()) (mapSet [] 4 8) 4 =
      (Except.ok 8, mapSet (mapSet [] 4 8) 4 9) :=
  ⟨claim9_nonce_manager.1 (fun _ => Except.ok 7) [] 4 7 (by decide) rfl,
   claim9_nonce_manager.2.2.2 (fun _ => Except.ok 7) (fun _ => Except.error ())
     [] (mapSet [] 4 8) 4 7 rfl⟩

/-- C7: subscribing to logs issues exactly one eager backfill query
(oracle call 0, with the criterion itself) before the two goroutines
start, preloads its results ahead of every live item, and — against the
collaborator-contract oracle answering range queries from the fixed
history — the delivered stream begins with exactly the historical
matches, in the order returned, before anything stemming from the live
session; subscribing to headers performs no query at all when nothing
arrives and its first delivered item is the first header observed
live. -/
theorem claim7_eager_backfill :
    (∀ (hist live : List EthLog) (q : FilterQuery) (fuel : Nat),
       List.Chain' keyLt hist → 2 ≤ fuel →
       (∀ x ∈ hist, q.fromBlock.getD 0 ≤ x.blockNumber) →
       (SubscribeFilterlogs (histOracle hist) q fuel live).err = false ∧
       (SubscribeFilterlogs (histOracle hist) q fuel live).tasksStarted = 2 ∧
       ∀ st, (SubscribeFilterlogs (histOracle hist) q fuel live).run = some st →
         ∃ rest, st.delivered = hist ++ rest) ∧
    (∀ (q : FilterQuery) (fuel : Nat),
       SubscribeFilterlogs (histOracle []) q fuel [] =
         ⟨false, 2, some ⟨[], none, 1, [q], false⟩⟩) ∧
    (∀ (oracle : Nat → Nat → HeadQueryResult) (fuel : Nat),
       SubscribeNewHead oracle fuel [] = ⟨false, 2, some ⟨[], none, 0, [], false⟩⟩) ∧
    (∀ (oracle : Nat → Nat → HeadQueryResult) (fuel : Nat) (h1 : EthHeader)
       (raw : List EthHeader) (st : NewHeadState),
       newHeadLoop oracle fuel ⟨[], none, 0, [], false⟩ (h1 :: raw) = some st →
       st.delivered.head? = some h1) := by
  refine ⟨?_, fun q fuel => rfl, fun oracle fuel => rfl, ?_⟩
  · intro hist live q fuel hchain hfuel hq
    have h0 : histOracle hist 0 q = QueryResult.ok hist := by
      unfold histOracle
      congr 1
      refine List.filter_eq_self.mpr ?_
      intro x hx
      simpa using hq x hx
    unfold SubscribeFilterlogs
    rw [h0]
    dsimp only
    refine ⟨rfl, rfl, ?_⟩
    intro st hrun
    rw [filterlogLoop_append] at hrun
    cases hist with
    | nil =>
      rw [filterlogLoop] at hrun
      dsimp only at hrun
      obtain ⟨tail, htail⟩ :=
        filterlogLoop_extends (histOracle []) q fuel live _ st hrun
      exact ⟨tail, by simpa using htail⟩
    | cons h1 t =>
      have hor : ∀ c2 : Nat, histOracle (h1 :: t) c2
          { q with fromBlock := some h1.blockNumber } = QueryResult.ok (h1 :: t) := by
        intro c2
        unfold histOracle
        congr 1
        refine List.filter_eq_self.mpr ?_
        intro x hx
        simp only [Option.getD_some, decide_eq_true_eq]
        rcases List.mem_cons.mp hx with hx | hx
        · subst hx
          exact Nat.le_refl _
        · exact keyLt_block_le
            (List.rel_of_pairwise_cons (List.chain'_iff_pairwise.mp hchain) hx)
      obtain ⟨calls2, qs2, hloop⟩ := filterlogLoop_hist (histOracle (h1 :: t)) q fuel
        h1 t hchain hfuel hor [] 1 [q]
      rw [hloop] at hrun
      dsimp only at hrun
      obtain ⟨tail, htail⟩ :=
        filterlogLoop_extends (histOracle (h1 :: t)) q fuel live _ st hrun
      refine ⟨tail, ?_⟩
      rw [htail]
      simp
  · intro oracle fuel h1 raw st h
    rw [newHeadLoop] at h
    have hstep : newHeadStep oracle fuel ⟨[], none, 0, [], false⟩ h1 =
        some ⟨[h1], some h1, 0, [], false⟩ := by
      unfold newHeadStep
      simp
    rw [hstep] at h
    dsimp only at h
    obtain ⟨tail, htail⟩ := newHeadLoop_extends oracle fuel raw _ st h
    rw [htail]
    simp

/-- C7 (witness): history `[(1,0,0), (2,1,0)]` with one live item at
block 5 delivers the two historical matches first; a head subscription
fed `[7, 9]` delivers header 7 first. -/
theorem claim7_witness :
    (∃ rest, ([⟨1, 0, 0⟩, ⟨2, 1, 0⟩] : List EthLog) =
      [⟨1, 0, 0⟩, ⟨2, 1, 0⟩] ++ rest) ∧
    ([⟨7⟩, ⟨8⟩, ⟨9⟩] : List EthHeader).head? = some ⟨7⟩ := by
  constructor
  · exact (claim7_eager_backfill.1 [⟨1, 0, 0⟩, ⟨2, 1, 0⟩] [⟨5, 0, 0⟩] ⟨none, none⟩ 2
      (List.chain'_cons.mpr ⟨by decide, List.chain'_singleton _⟩) (by omega)
      (by decide)).2.2
      ⟨[⟨1, 0, 0⟩, ⟨2, 1, 0⟩], some ⟨2, 1, 0⟩, 3,
        [⟨none, none⟩, ⟨some 1, none⟩, ⟨some 2, none⟩], false⟩ (by decide)
  · exact claim7_eager_backfill.2.2.2 headNumOracle 5 ⟨7⟩ [⟨9⟩]
      ⟨[⟨7⟩, ⟨8⟩, ⟨9⟩], some ⟨9⟩, 1, [8], false⟩ (by decide)
